import Mathlib

/-!
# Verification of the `mydi` dependency-injection container

This file gives a shallow embedding of the core of the `mydi` runtime
dependency-injection container (the `InjectionBinder` accumulation structure,
its validation passes, the wave-based resolution algorithm, and the `Injector`
registry), and proves the specification claims about it.

Modelling conventions:
* Rust `TypeId` is modelled as `Nat` (an opaque, decidable identity).
* Rust `HashMap`/`HashSet` are modelled as canonical (strictly sorted)
  association lists / lists, so that extensionally equal maps are
  syntactically equal and everything stays executable.
* Type-erased component values (`Box<dyn Any>`) are modelled by the inductive
  `Value`; the deferred thunk captured by a `Lazy<T>` component is modelled by
  the constructor `Value.lazyRef`, whose forcing (`forceValue`) looks the
  target type up in the finished registry, exactly as the Rust thunk does.
* `anyhow::Result` is modelled as `Except DIError`; the build-time errors
  carry the structured data that the Rust code formats into its message
  (offending type keys; for missing dependencies also the component name,
  the recorded debug site and the missing dependency names).
-/

/-! ## Canonical finite maps and sets over `Nat` keys -/

/-- Lookup in an association list, first match wins (models `HashMap::get`). -/
def mapFind {α : Type} (k : Nat) : List (Nat × α) → Option α
  | [] => none
  | (k', v) :: rest => if k = k' then some v else mapFind k rest

/-- Sorted insert-or-replace into a canonical association list
(models `HashMap::insert`, which overwrites an existing entry). -/
def mapInsert {α : Type} (k : Nat) (v : α) : List (Nat × α) → List (Nat × α)
  | [] => [(k, v)]
  | (k', v') :: rest =>
    if k < k' then (k, v) :: (k', v') :: rest
    else if k = k' then (k, v) :: rest
    else (k', v') :: mapInsert k v rest

/-- Sorted insert into a canonical set of keys (models `HashSet::insert`). -/
def setInsert (k : Nat) : List Nat → List Nat
  | [] => [k]
  | k' :: rest =>
    if k < k' then k :: k' :: rest
    else if k = k' then k' :: rest
    else k' :: setInsert k rest

/-- Collect a sequence of key-value pairs into a canonical map; later entries
overwrite earlier ones (models `Vec::into_iter().collect::<HashMap<_,_>>()`). -/
def collectMap {α : Type} (l : List (Nat × α)) : List (Nat × α) :=
  l.foldl (fun m p => mapInsert p.1 p.2 m) []

/-- Collect a sequence of keys into a canonical set
(models `Iterator::collect::<HashSet<_>>()`). -/
def sortedDedup (l : List Nat) : List Nat :=
  l.foldl (fun s k => setInsert k s) []

theorem mapFind_mapInsert_self {α : Type} (k : Nat) (v : α) (m : List (Nat × α)) :
    mapFind k (mapInsert k v m) = some v := by
  induction m with
  | nil => simp [mapInsert, mapFind]
  | cons p rest ih =>
    obtain ⟨k', v'⟩ := p
    by_cases h1 : k < k'
    · simp [mapInsert, h1, mapFind]
    · by_cases h2 : k = k'
      · simp [mapInsert, h1, h2, mapFind]
      · simp [mapInsert, h1, h2, mapFind, ih]

theorem mapFind_mapInsert_ne {α : Type} {k j : Nat} (v : α) (m : List (Nat × α))
    (h : j ≠ k) : mapFind j (mapInsert k v m) = mapFind j m := by
  induction m with
  | nil => simp [mapInsert, mapFind, h]
  | cons p rest ih =>
    obtain ⟨k', v'⟩ := p
    by_cases h1 : k < k'
    · simp only [mapInsert, if_pos h1, mapFind, if_neg h]
    · by_cases h2 : k = k'
      · subst h2
        simp only [mapInsert, if_neg h1, if_pos rfl, mapFind, if_neg h]
      · simp only [mapInsert, if_neg h1, if_neg h2, mapFind]
        by_cases h3 : j = k'
        · simp [h3]
        · simp [h3, ih]

theorem mem_setInsert (j k : Nat) (s : List Nat) :
    j ∈ setInsert k s ↔ j = k ∨ j ∈ s := by
  induction s with
  | nil => simp [setInsert]
  | cons k' rest ih =>
    by_cases h1 : k < k'
    · simp [setInsert, h1]
    · by_cases h2 : k = k'
      · subst h2
        have hins : setInsert k (k :: rest) = k :: rest := by
          simp [setInsert, h1]
        rw [hins, List.mem_cons]
        tauto
      · simp only [setInsert, if_neg h1, if_neg h2, List.mem_cons, ih]
        tauto

theorem mem_sortedDedup (j : Nat) (l : List Nat) :
    j ∈ sortedDedup l ↔ j ∈ l := by
  suffices h : ∀ init : List Nat,
      j ∈ l.foldl (fun s k => setInsert k s) init ↔ j ∈ l ∨ j ∈ init by
    have := h []
    simpa [sortedDedup] using this
  induction l with
  | nil => intro init; simp
  | cons k rest ih =>
    intro init
    simp only [List.foldl_cons, ih, mem_setInsert, List.mem_cons]
    tauto

theorem mapFind_eq_none_iff {α : Type} (k : Nat) (m : List (Nat × α)) :
    mapFind k m = none ↔ k ∉ m.map Prod.fst := by
  induction m with
  | nil => simp [mapFind]
  | cons p rest ih =>
    obtain ⟨k', v'⟩ := p
    by_cases h : k = k'
    · simp [mapFind, h]
    · simp [mapFind, h, ih]

theorem mapFind_isSome_iff {α : Type} (k : Nat) (m : List (Nat × α)) :
    (mapFind k m).isSome ↔ k ∈ m.map Prod.fst := by
  induction m with
  | nil => simp [mapFind]
  | cons p rest ih =>
    obtain ⟨k', v'⟩ := p
    by_cases h : k = k'
    · simp [mapFind, h]
    · simp [mapFind, h, ih]

theorem mapFind_mem {α : Type} {k : Nat} {v : α} {m : List (Nat × α)}
    (h : mapFind k m = some v) : (k, v) ∈ m := by
  induction m with
  | nil => simp [mapFind] at h
  | cons p rest ih =>
    obtain ⟨k', v'⟩ := p
    by_cases hk : k = k'
    · subst hk
      simp [mapFind] at h
      simp [h]
    · simp [mapFind, hk] at h
      exact List.mem_cons_of_mem _ (ih h)

/-- Keys of a canonical association list are strictly sorted. -/
def SortedKeys {α : Type} (m : List (Nat × α)) : Prop :=
  List.Chain' (fun p q => p.1 < q.1) m

/-- A canonical key set is strictly sorted. -/
def SortedSet (s : List Nat) : Prop :=
  List.Chain' (· < ·) s

theorem sortedKeys_mapInsert {α : Type} (k : Nat) (v : α) (m : List (Nat × α))
    (h : SortedKeys m) : SortedKeys (mapInsert k v m) := by
  induction m with
  | nil => simp [mapInsert, SortedKeys]
  | cons p rest ih =>
    obtain ⟨k', v'⟩ := p
    rw [SortedKeys, List.chain'_cons'] at h
    by_cases h1 : k < k'
    · simp only [mapInsert, if_pos h1]
      rw [SortedKeys, List.chain'_cons]
      exact ⟨h1, List.chain'_cons'.2 h⟩
    · by_cases h2 : k = k'
      · subst h2
        have hins : mapInsert k v ((k, v') :: rest) = (k, v) :: rest := by
          simp [mapInsert, h1]
        rw [hins, SortedKeys, List.chain'_cons']
        exact h
      · simp only [mapInsert, if_neg h1, if_neg h2]
        rw [SortedKeys, List.chain'_cons']
        refine ⟨?_, ih h.2⟩
        intro q hq
        have hk' : k' < k := by omega
        cases rest with
        | nil =>
          simp [mapInsert] at hq
          rw [← hq]
          exact hk'
        | cons r rest' =>
          obtain ⟨r1, r2⟩ := r
          by_cases h3 : k < r1
          · simp only [mapInsert, if_pos h3, List.head?_cons, Option.mem_def,
              Option.some.injEq] at hq
            rw [← hq]
            exact hk'
          · by_cases h4 : k = r1
            · simp only [mapInsert, if_neg h3, if_pos h4, List.head?_cons,
                Option.mem_def, Option.some.injEq] at hq
              rw [← hq]
              exact hk'
            · simp only [mapInsert, if_neg h3, if_neg h4, List.head?_cons,
                Option.mem_def, Option.some.injEq] at hq
              rw [← hq]
              exact h.1 (r1, r2) rfl

theorem sortedSet_setInsert (k : Nat) (s : List Nat)
    (h : SortedSet s) : SortedSet (setInsert k s) := by
  induction s with
  | nil => simp [setInsert, SortedSet]
  | cons k' rest ih =>
    rw [SortedSet, List.chain'_cons'] at h
    by_cases h1 : k < k'
    · simp only [setInsert, if_pos h1]
      rw [SortedSet, List.chain'_cons]
      exact ⟨h1, List.chain'_cons'.2 h⟩
    · by_cases h2 : k = k'
      · subst h2
        have hins : setInsert k (k :: rest) = k :: rest := by
          simp [setInsert, h1]
        rw [hins, SortedSet, List.chain'_cons']
        exact h
      · simp only [setInsert, if_neg h1, if_neg h2]
        rw [SortedSet, List.chain'_cons']
        refine ⟨?_, ih h.2⟩
        intro q hq
        have hk' : k' < k := by omega
        cases rest with
        | nil =>
          simp [setInsert] at hq
          omega
        | cons r rest' =>
          by_cases h3 : k < r
          · simp only [setInsert, if_pos h3, List.head?_cons, Option.mem_def,
              Option.some.injEq] at hq
            omega
          · by_cases h4 : k = r
            · simp only [setInsert, if_neg h3, if_pos h4, List.head?_cons,
                Option.mem_def, Option.some.injEq] at hq
              omega
            · simp only [setInsert, if_neg h3, if_neg h4, List.head?_cons,
                Option.mem_def, Option.some.injEq] at hq
              rw [← hq]
              exact h.1 r rfl

theorem sortedKeys_collectMap {α : Type} (l : List (Nat × α)) :
    SortedKeys (collectMap l) := by
  suffices h : ∀ init : List (Nat × α), SortedKeys init →
      SortedKeys (l.foldl (fun m p => mapInsert p.1 p.2 m) init) by
    exact h [] (by simp [SortedKeys])
  induction l with
  | nil => intro init hinit; exact hinit
  | cons p rest ih =>
    intro init hinit
    exact ih _ (sortedKeys_mapInsert _ _ _ hinit)

theorem sortedSet_sortedDedup (l : List Nat) : SortedSet (sortedDedup l) := by
  suffices h : ∀ init : List Nat, SortedSet init →
      SortedSet (l.foldl (fun s k => setInsert k s) init) by
    exact h [] (by simp [SortedSet])
  induction l with
  | nil => intro init hinit; exact hinit
  | cons k rest ih =>
    intro init hinit
    exact ih _ (sortedSet_setInsert _ _ hinit)

theorem sortedKeys_head_lt {α : Type} {k0 : Nat} {v0 : α} {rest : List (Nat × α)}
    (h : SortedKeys ((k0, v0) :: rest)) : ∀ q ∈ rest, k0 < q.1 := by
  induction rest generalizing k0 v0 with
  | nil => intro q hq; simp at hq
  | cons p rest' ih =>
    obtain ⟨k1, v1⟩ := p
    rw [SortedKeys, List.chain'_cons] at h
    intro q hq
    rcases List.mem_cons.1 hq with hq | hq
    · rw [hq]; exact h.1
    · exact Nat.lt_trans h.1 (ih h.2 q hq)

theorem sortedSet_head_lt {k0 : Nat} {rest : List Nat}
    (h : SortedSet (k0 :: rest)) : ∀ q ∈ rest, k0 < q := by
  induction rest generalizing k0 with
  | nil => intro q hq; simp at hq
  | cons k1 rest' ih =>
    rw [SortedSet, List.chain'_cons] at h
    intro q hq
    rcases List.mem_cons.1 hq with hq | hq
    · rw [hq]; exact h.1
    · exact Nat.lt_trans h.1 (ih h.2 q hq)

theorem sortedKeys_nodup {α : Type} {m : List (Nat × α)}
    (h : SortedKeys m) : (m.map Prod.fst).Nodup := by
  induction m with
  | nil => simp
  | cons p rest ih =>
    obtain ⟨k, v⟩ := p
    rw [List.map_cons, List.nodup_cons]
    constructor
    · intro hmem
      obtain ⟨q, hq, hq1⟩ := List.mem_map.1 hmem
      have := sortedKeys_head_lt h q hq
      omega
    · exact ih (List.Chain'.tail h)

theorem sortedSet_nodup {s : List Nat} (h : SortedSet s) : s.Nodup := by
  induction s with
  | nil => simp
  | cons k rest ih =>
    rw [List.nodup_cons]
    constructor
    · intro hmem
      have := sortedSet_head_lt h k hmem
      omega
    · exact ih (List.Chain'.tail h)

theorem mapExt {α : Type} {m1 m2 : List (Nat × α)} (h1 : SortedKeys m1)
    (h2 : SortedKeys m2) (h : ∀ k, mapFind k m1 = mapFind k m2) : m1 = m2 := by
  induction m1 generalizing m2 with
  | nil =>
    cases m2 with
    | nil => rfl
    | cons q s =>
      obtain ⟨k2, v2⟩ := q
      have := h k2
      simp [mapFind] at this
  | cons p r ih =>
    obtain ⟨k1, v1⟩ := p
    cases m2 with
    | nil =>
      have := h k1
      simp [mapFind] at this
    | cons q s =>
      obtain ⟨k2, v2⟩ := q
      have hk : k1 = k2 := by
        by_contra hne
        rcases Nat.lt_or_ge k1 k2 with hlt | hge
        · have hfind := h k1
          simp only [mapFind, if_pos rfl] at hfind
          rw [if_neg hne] at hfind
          rcases hfound : mapFind k1 s with _ | v
          · rw [hfound] at hfind; exact Option.noConfusion hfind
          · have hmem := mapFind_mem hfound
            have := sortedKeys_head_lt h2 _ hmem
            omega
        · have hlt2 : k2 < k1 := by omega
          have hfind := h k2
          simp only [mapFind, if_pos rfl] at hfind
          rw [if_neg (by omega : ¬ k2 = k1)] at hfind
          rcases hfound : mapFind k2 r with _ | v
          · rw [hfound] at hfind; exact Option.noConfusion hfind.symm
          · have hmem := mapFind_mem hfound
            have := sortedKeys_head_lt h1 _ hmem
            omega
      subst hk
      have hv : v1 = v2 := by
        have hfind := h k1
        simp only [mapFind, if_pos rfl] at hfind
        exact Option.some.inj hfind
      subst hv
      have htail : ∀ k, mapFind k r = mapFind k s := by
        intro k
        by_cases hk : k = k1
        · subst hk
          rcases hr : mapFind k r with _ | v
          · rcases hs : mapFind k s with _ | w
            · rfl
            · have hmem := mapFind_mem hs
              have := sortedKeys_head_lt h2 _ hmem
              omega
          · have hmem := mapFind_mem hr
            have := sortedKeys_head_lt h1 _ hmem
            omega
        · have hfind := h k
          simp only [mapFind, if_neg hk] at hfind
          exact hfind
      have hre := ih (List.Chain'.tail h1) (List.Chain'.tail h2) htail
      simp only [List.tail_cons] at hre
      rw [hre]

theorem setExt {s1 s2 : List Nat} (h1 : SortedSet s1) (h2 : SortedSet s2)
    (h : ∀ k, k ∈ s1 ↔ k ∈ s2) : s1 = s2 := by
  induction s1 generalizing s2 with
  | nil =>
    cases s2 with
    | nil => rfl
    | cons k2 s =>
      have := (h k2).2 (List.mem_cons_self _ _)
      simp at this
  | cons k1 r ih =>
    cases s2 with
    | nil =>
      have := (h k1).1 (List.mem_cons_self _ _)
      simp at this
    | cons k2 s =>
      have hk : k1 = k2 := by
        by_contra hne
        have hm1 : k1 ∈ k2 :: s := (h k1).1 (List.mem_cons_self _ _)
        have hm2 : k2 ∈ k1 :: r := (h k2).2 (List.mem_cons_self _ _)
        rcases List.mem_cons.1 hm1 with he | hm1
        · exact hne he
        · have hlt1 := sortedSet_head_lt h2 _ hm1
          rcases List.mem_cons.1 hm2 with he | hm2
          · exact hne he.symm
          · have hlt2 := sortedSet_head_lt h1 _ hm2
            omega
      subst hk
      have htail : ∀ k, k ∈ r ↔ k ∈ s := by
        intro k
        constructor
        · intro hk
          have hne : k ≠ k1 := by
            have := sortedSet_head_lt h1 _ hk
            omega
          have := (h k).1 (List.mem_cons_of_mem _ hk)
          rcases List.mem_cons.1 this with he | hm
          · exact absurd he hne
          · exact hm
        · intro hk
          have hne : k ≠ k1 := by
            have := sortedSet_head_lt h2 _ hk
            omega
          have := (h k).2 (List.mem_cons_of_mem _ hk)
          rcases List.mem_cons.1 this with he | hm
          · exact absurd he hne
          · exact hm
      have hre := ih (List.Chain'.tail h1) (List.Chain'.tail h2) htail
      simp only [List.tail_cons] at hre
      rw [hre]

theorem collectMap_append_singleton {α : Type} (l : List (Nat × α)) (p : Nat × α) :
    collectMap (l ++ [p]) = mapInsert p.1 p.2 (collectMap l) := by
  simp [collectMap, List.foldl_append]

theorem mapFind_collectMap {α : Type} (k : Nat) (l : List (Nat × α)) :
    mapFind k (collectMap l) = mapFind k l.reverse := by
  induction l using List.reverseRecOn with
  | nil => rfl
  | append_singleton l p ih =>
    obtain ⟨k1, v1⟩ := p
    rw [collectMap_append_singleton, List.reverse_append]
    by_cases h : k = k1
    · subst h
      rw [mapFind_mapInsert_self]
      simp [mapFind]
    · rw [mapFind_mapInsert_ne _ _ h]
      simp [mapFind, h, ih]

theorem mapFind_of_mem_nodup {α : Type} {l : List (Nat × α)} {k : Nat} {v : α}
    (hnd : (l.map Prod.fst).Nodup) (hmem : (k, v) ∈ l) : mapFind k l = some v := by
  induction l with
  | nil => simp at hmem
  | cons p rest ih =>
    obtain ⟨k', v'⟩ := p
    rw [List.map_cons, List.nodup_cons] at hnd
    rcases List.mem_cons.1 hmem with he | hm
    · rw [Prod.mk.injEq] at he
      obtain ⟨he1, he2⟩ := he
      simp [mapFind, he1, he2]
    · have hne : k ≠ k' := by
        intro he
        subst he
        exact hnd.1 (List.mem_map.2 ⟨(k, v), hm, rfl⟩)
      simp only [mapFind, if_neg hne]
      exact ih hnd.2 hm

theorem mapFind_eq_some_iff_of_nodup {α : Type} {l : List (Nat × α)}
    (hnd : (l.map Prod.fst).Nodup) (k : Nat) (v : α) :
    mapFind k l = some v ↔ (k, v) ∈ l :=
  ⟨mapFind_mem, mapFind_of_mem_nodup hnd⟩

theorem mapFind_perm {α : Type} {l1 l2 : List (Nat × α)} (hp : l1.Perm l2)
    (hnd : (l2.map Prod.fst).Nodup) (k : Nat) : mapFind k l1 = mapFind k l2 := by
  have hnd1 : (l1.map Prod.fst).Nodup := ((hp.map Prod.fst).nodup_iff).2 hnd
  rcases h2 : mapFind k l2 with _ | v
  · rw [mapFind_eq_none_iff] at h2 ⊢
    intro hmem
    exact h2 ((hp.map Prod.fst).mem_iff.1 hmem)
  · rw [mapFind_eq_some_iff_of_nodup hnd1]
    exact hp.mem_iff.2 (mapFind_mem h2)

theorem collectMap_perm {α : Type} {l1 l2 : List (Nat × α)} (hp : l1.Perm l2)
    (hnd : (l2.map Prod.fst).Nodup) : collectMap l1 = collectMap l2 := by
  apply mapExt (sortedKeys_collectMap l1) (sortedKeys_collectMap l2)
  intro k
  rw [mapFind_collectMap, mapFind_collectMap]
  have hrev : l1.reverse.Perm l2.reverse :=
    (List.reverse_perm l1).trans (hp.trans (List.reverse_perm l2).symm)
  exact mapFind_perm hrev (by simpa using hnd) k

theorem sortedDedup_perm {l1 l2 : List Nat} (hp : l1.Perm l2) :
    sortedDedup l1 = sortedDedup l2 := by
  apply setExt (sortedSet_sortedDedup l1) (sortedSet_sortedDedup l2)
  intro k
  rw [mem_sortedDedup, mem_sortedDedup]
  exact hp.mem_iff

theorem mem_keys_collectMap {α : Type} (j : Nat) (l : List (Nat × α)) :
    j ∈ (collectMap l).map Prod.fst ↔ j ∈ l.map Prod.fst := by
  rw [← mapFind_isSome_iff, mapFind_collectMap, mapFind_isSome_iff, List.map_reverse,
    List.mem_reverse]

theorem collectMap_entry_mem {α : Type} {k : Nat} {v : α} {l : List (Nat × α)}
    (h : (k, v) ∈ collectMap l) : (k, v) ∈ l := by
  have hnd : ((collectMap l).map Prod.fst).Nodup := sortedKeys_nodup (sortedKeys_collectMap l)
  have hfind : mapFind k (collectMap l) = some v :=
    (mapFind_eq_some_iff_of_nodup hnd k v).2 h
  rw [mapFind_collectMap] at hfind
  have := mapFind_mem hfind
  exact List.mem_reverse.1 this

theorem collectMap_eq_nil_iff {α : Type} (l : List (Nat × α)) :
    collectMap l = [] ↔ l = [] := by
  constructor
  · intro h
    cases hl : l with
    | nil => rfl
    | cons p rest =>
      have : p.1 ∈ (collectMap l).map Prod.fst := by
        rw [mem_keys_collectMap]
        exact List.mem_map.2 ⟨p, by rw [hl]; exact List.mem_cons_self _ _, rfl⟩
      rw [h] at this
      simp at this
  · intro h; rw [h]; rfl

/-! ## Data model

Shallow embedding of `src/injection_binder.rs` and `src/injector.rs`. -/

/-- Type-erased component values (Rust `Box<dyn Any>`). A struct with several
fields is encoded with nested `pair`s; `lazyRef t` is the deferred thunk a
`Lazy<T>` component stores: it captures the registry by reference and looks
type `t` up only when forced (see `forceValue`). -/
inductive Value where
  | unit : Value
  | nat : Nat → Value
  | pair : Value → Value → Value
  | lazyRef : Nat → Value
deriving DecidableEq

/-- The registry payload: `TypeId -> value` map held by the `Injector`. -/
abbrev RegMap := List (Nat × Value)

/-- Structured content of the errors the Rust code formats into `anyhow`
messages. `duplicates`, `nestedLazy` and `cycle` carry the offending type
keys (the Rust message renders their names via the `type_names` map);
`missingDeps` carries, per offending component, its key, its rendered name,
its recorded debug site if any, and the rendered names of its missing
dependencies, exactly the data assembled in `verify_missing_deps`. -/
inductive DIError where
  | duplicates : List Nat → DIError
  | nestedLazy : List Nat → DIError
  | missingDeps : List (Nat × String × Option String × List String) → DIError
  | cycle : String → List Nat → DIError
  | builderFailed : String → DIError
  | missingValue : String → DIError
deriving DecidableEq

/-- Message of `verify_recursive_deps` (Rust: "Dependencies cycle (one or
more) found :"). -/
def cycleMsg : String := "Dependencies cycle (one or more) found :"

/-- Message of the resolution pass inside `build` (Rust: "Can't resolve
dependencies of types :", rendered here without the apostrophe). -/
def buildMsg : String := "Cannot resolve dependencies of types :"

/-- The `InjectionBinder` accumulation structure (the phantom `LastType`
parameter is a builder-ergonomics device with no resolution semantics and is
not modelled). `staticValues`, `typeNames`, `debugLines` are `HashMap`s,
`lazyTypes` a `HashSet` (all canonical here); `builders` and
`requirementsGraph` are `Vec`s: order and duplicate keys are preserved. -/
structure Binder where
  staticValues : RegMap
  builders : List (Nat × (RegMap → Except DIError Value))
  requirementsGraph : List (Nat × List Nat)
  typeNames : List (Nat × String)
  debugLines : List (Nat × String)
  lazyTypes : List Nat

/-- The freshly created, completely empty binder (`InjectionBinder::new`). -/
def Binder.empty : Binder :=
  { staticValues := [], builders := [], requirementsGraph := [],
    typeNames := [], debugLines := [], lazyTypes := [] }

/-- Registration of a pre-supplied instance (`InjectionBinder::instance`):
stores the value under its type key, records the type name, and pushes a
zero-dependency entry onto the requirements graph. -/
def Binder.instanceValue (b : Binder) (key : Nat) (name : String) (v : Value) :
    Binder :=
  { b with
    staticValues := mapInsert key v b.staticValues,
    typeNames := mapInsert key name b.typeNames,
    requirementsGraph := b.requirementsGraph ++ [(key, [])] }

/-- Registration of a builder (`InjectionBinder::inject_fn_raw`): pushes the
builder and the graph entry, records the dependency names then the component
name, and marks the key lazy / records the debug site when given. -/
def Binder.injectFnRaw (b : Binder) (key : Nat) (name : String)
    (f : RegMap → Except DIError Value) (depsNames : List (Nat × String))
    (debugLine : Option String) (lazy : Bool) : Binder :=
  { b with
    builders := b.builders ++ [(key, f)],
    requirementsGraph := b.requirementsGraph ++ [(key, depsNames.map Prod.fst)],
    typeNames :=
      mapInsert key name
        (depsNames.foldl (fun m p => mapInsert p.1 p.2 m) b.typeNames),
    lazyTypes := if lazy then setInsert key b.lazyTypes else b.lazyTypes,
    debugLines :=
      match debugLine with
      | some d => mapInsert key d b.debugLines
      | none => b.debugLines }

/-- Structural concatenation of two binders (`InjectionBinder::merge`): the
map/set fields are extended with `other`'s entries (later entries overwrite),
the `Vec` fields are concatenated. -/
def Binder.merge (b other : Binder) : Binder :=
  { staticValues :=
      other.staticValues.foldl (fun m p => mapInsert p.1 p.2 m) b.staticValues,
    builders := b.builders ++ other.builders,
    requirementsGraph := b.requirementsGraph ++ other.requirementsGraph,
    typeNames :=
      other.typeNames.foldl (fun m p => mapInsert p.1 p.2 m) b.typeNames,
    debugLines :=
      other.debugLines.foldl (fun m p => mapInsert p.1 p.2 m) b.debugLines,
    lazyTypes := other.lazyTypes.foldl (fun s k => setInsert k s) b.lazyTypes }

/-! ## Validation passes -/

/-- Duplicate scan state step (`verify_duplicates` loop body): zero-dependency
entries are skipped; a non-empty-dependency key already in the running seen
set is recorded as a duplicate, otherwise it is added to the seen set. -/
def dupStep (st : List Nat × List Nat) (p : Nat × List Nat) :
    List Nat × List Nat :=
  if p.2.isEmpty then st
  else if p.1 ∈ st.1 then (st.1, setInsert p.1 st.2)
  else (setInsert p.1 st.1, st.2)

/-- Duplicate detection (`InjectionBinder::verify_duplicates`): scans the
requirements graph in registration order against a seen set seeded with the
already-known keys. -/
def Binder.verifyDuplicates (b : Binder) (additional : List Nat) :
    Except DIError Unit :=
  let dups := (b.requirementsGraph.foldl dupStep (additional, [])).2
  if dups.isEmpty then Except.ok () else Except.error (DIError.duplicates dups)

/-- Illegal-lazy-nesting detection (`verify_nested_lazy_deps`): a lazy-marked
component must not depend on a lazy-marked component. Offenders are listed in
registration order, as in the Rust `Vec` collect. -/
def Binder.verifyNestedLazyDeps (b : Binder) : Except DIError Unit :=
  let invalid :=
    ((b.requirementsGraph.filter
        (fun p => p.1 ∈ b.lazyTypes && p.2.any (fun x => x ∈ b.lazyTypes))).map
      Prod.fst)
  if invalid.isEmpty then Except.ok ()
  else Except.error (DIError.nestedLazy invalid)

/-- Missing-dependency detection (`verify_missing_deps`): a dependency must
appear among the additional keys or the registered graph keys. Per offending
component the error records its key, its name, its debug site and the names
of its missing dependencies; as in the Rust `flat_map`, a component without a
recorded name is dropped, and so is a missing dependency without one. -/
def Binder.verifyMissingDeps (b : Binder) (additional : List Nat) :
    Except DIError Unit :=
  let availableKeys := additional ++ b.requirementsGraph.map Prod.fst
  let missingLocal :=
    b.requirementsGraph.filterMap (fun p =>
      let missing :=
        (p.2.filter (fun x => ¬ x ∈ availableKeys)).filterMap
          (fun x => mapFind x b.typeNames)
      if missing.isEmpty then none
      else (mapFind p.1 b.typeNames).map
        (fun name => (p.1, name, mapFind p.1 b.debugLines, missing)))
  if missingLocal.isEmpty then Except.ok ()
  else Except.error (DIError.missingDeps missingLocal)

/-! ## Resolution (`traverse_dependencies_and_verify_recursion`) -/

/-- Lazy-marked keys of the requirements graph
(Rust `resolved_lazy_types : HashSet<TypeId>`). -/
def Binder.resolvedLazySet (b : Binder) : List Nat :=
  sortedDedup ((b.requirementsGraph.map Prod.fst).filter
    (fun k => k ∈ b.lazyTypes))

/-- The remaining-dependency map `left_deps : HashMap<TypeId, Vec<TypeId>>`:
non-lazy graph entries collected into a map (later duplicates overwrite). -/
def Binder.pendingDeps (b : Binder) : List (Nat × List Nat) :=
  collectMap (b.requirementsGraph.filter
    (fun p => ¬ p.1 ∈ b.resolvedLazySet))

/-- One round plus the loop control of the Rust wave loop. Each round
resolves every remaining entry whose dependencies are all available, invoking
`onResolve` for each; if a round removes nothing the loop stalls and reports
the remaining keys as the cycle set (note a first round over an empty map
stalls immediately). `fuel` only totalises the recursion; callers pass
`leftDeps.length + 1`, which is never exhausted. -/
def waveLoop {σ : Type} (onResolve : Nat → σ → Except DIError σ)
    (errMsg : String) :
    Nat → List Nat → List (Nat × List Nat) → σ → Except DIError σ
  | 0, _, leftDeps, _ =>
    Except.error (DIError.cycle errMsg (leftDeps.map Prod.fst))
  | fuel + 1, available, leftDeps, s =>
    let resolved :=
      (leftDeps.filter (fun p => p.2.all (fun d => d ∈ available))).map Prod.fst
    match resolved.foldlM (fun st k => onResolve k st) s with
    | Except.error e => Except.error e
    | Except.ok s' =>
      let leftDeps' := leftDeps.filter (fun p => ¬ p.1 ∈ resolved)
      if leftDeps'.length = leftDeps.length then
        Except.error (DIError.cycle errMsg (leftDeps'.map Prod.fst))
      else if leftDeps'.isEmpty then Except.ok s'
      else waveLoop onResolve errMsg fuel (available ++ resolved) leftDeps' s'

/-- The full traversal: first every lazy-marked component is made available
and resolved (its `onResolve` runs), then the non-lazy wave loop runs over
`pendingDeps` starting from the additional keys plus the lazy set. -/
def Binder.traverseCore {σ : Type} (b : Binder) (additional : List Nat)
    (onResolve : Nat → σ → Except DIError σ) (errMsg : String) (s0 : σ) :
    Except DIError σ :=
  match b.resolvedLazySet.foldlM (fun st k => onResolve k st) s0 with
  | Except.error e => Except.error e
  | Except.ok s1 =>
    waveLoop onResolve errMsg (b.pendingDeps.length + 1)
      (sortedDedup additional ++ b.resolvedLazySet) b.pendingDeps s1

/-- Cycle detection (`verify_recursive_deps`): the traversal in dry-run mode. -/
def Binder.verifyRecursiveDeps (b : Binder) (additional : List Nat) :
    Except DIError Unit :=
  b.traverseCore additional (fun _ u => Except.ok u) cycleMsg ()

/-- All validation passes in order (`InjectionBinder::verify`): duplicates,
illegal lazy nesting, missing dependencies, cycles; the first failing pass
aborts the call. -/
def Binder.verify (b : Binder) (additionalTypes : List Nat) :
    Except DIError Unit :=
  let additionalDeps :=
    sortedDedup (additionalTypes ++ b.staticValues.map Prod.fst)
  match b.verifyDuplicates additionalDeps with
  | Except.error e => Except.error e
  | Except.ok _ =>
    match b.verifyNestedLazyDeps with
    | Except.error e => Except.error e
    | Except.ok _ =>
      match b.verifyMissingDeps additionalDeps with
      | Except.error e => Except.error e
      | Except.ok _ => b.verifyRecursiveDeps additionalDeps

/-- The real resolution step used by `build`: when the resolved key has a
builder, invoke it against the current registry and insert the result. -/
def buildStep (buildersMap : List (Nat × (RegMap → Except DIError Value)))
    (k : Nat) (st : RegMap) : Except DIError RegMap :=
  match mapFind k buildersMap with
  | some f =>
    match f st with
    | Except.ok v => Except.ok (mapInsert k v st)
    | Except.error e => Except.error e
  | none => Except.ok st

/-- Validate, then resolve (`InjectionBinder::build`): the registry starts
from the static values and the traversal invokes each resolved component's
builder against it. -/
def Binder.build (b : Binder) : Except DIError RegMap :=
  let initialKnown := b.staticValues.map Prod.fst
  match b.verify initialKnown with
  | Except.error e => Except.error e
  | Except.ok _ =>
    b.traverseCore initialKnown (buildStep (collectMap b.builders)) buildMsg
      b.staticValues

/-! ## The Injector (registry) and lazy forcing -/

/-- Lookup of a component (`Injector::get::<X>`): returns a clone of the
stored value, or a `MissingValue` error carrying the type name when the key
is absent. -/
def Injector.get (reg : RegMap) (key : Nat) (name : String) :
    Except DIError Value :=
  match mapFind key reg with
  | some v => Except.ok v
  | none => Except.error (DIError.missingValue name)

/-- Forcing a value against the finished registry: a `lazyRef t` thunk
performs its deferred lookup of `t` (as the closure built in
`ComponentMeta for Lazy<T>` does); any other value is already concrete. -/
def forceValue (reg : RegMap) : Value → Option Value
  | Value.lazyRef t => mapFind t reg
  | v => some v

/-! ## Basic facts about the passes and the traversal -/

theorem foldlM_ok_of_ok {σ : Type} (l : List Nat) (s : σ) :
    l.foldlM (fun st (_ : Nat) => Except.ok (ε := DIError) st) s = Except.ok s := by
  induction l generalizing s with
  | nil => rfl
  | cons k rest ih => simpa [List.foldlM_cons] using ih s

theorem waveLoop_dry_shape (errMsg : String) (fuel : Nat) :
    ∀ (available : List Nat) (leftDeps : List (Nat × List Nat)),
      waveLoop (fun _ u => Except.ok u) errMsg fuel available leftDeps () =
          Except.ok () ∨
        ∃ L, waveLoop (fun _ u => Except.ok u) errMsg fuel available leftDeps () =
          Except.error (DIError.cycle errMsg L) := by
  induction fuel with
  | zero =>
    intro available leftDeps
    exact Or.inr ⟨leftDeps.map Prod.fst, rfl⟩
  | succ fuel ih =>
    intro available leftDeps
    rw [waveLoop]
    rw [foldlM_ok_of_ok]
    by_cases h1 :
        (leftDeps.filter (fun p => ¬ p.1 ∈
          (leftDeps.filter (fun p => p.2.all (fun d => d ∈ available))).map
            Prod.fst)).length = leftDeps.length
    · simp only [h1, if_pos rfl]
      exact Or.inr ⟨_, rfl⟩
    · simp only [if_neg h1]
      by_cases h2 :
          (leftDeps.filter (fun p => ¬ p.1 ∈
            (leftDeps.filter (fun p => p.2.all (fun d => d ∈ available))).map
              Prod.fst)).isEmpty
      · rw [if_pos h2]
        exact Or.inl rfl
      · rw [if_neg h2]
        exact ih _ _

theorem verifyRecursiveDeps_shape (b : Binder) (additional : List Nat) :
    b.verifyRecursiveDeps additional = Except.ok () ∨
      ∃ L, b.verifyRecursiveDeps additional =
        Except.error (DIError.cycle cycleMsg L) := by
  rw [Binder.verifyRecursiveDeps, Binder.traverseCore, foldlM_ok_of_ok]
  exact waveLoop_dry_shape cycleMsg _ _ _

/-- The canonical set of known keys `verify` works with. -/
def Binder.knownKeys (b : Binder) (additionalTypes : List Nat) : List Nat :=
  sortedDedup (additionalTypes ++ b.staticValues.map Prod.fst)

theorem verify_eq_of_dup_error {b : Binder} {additionalTypes : List Nat} {e : DIError}
    (h : b.verifyDuplicates (b.knownKeys additionalTypes) = Except.error e) :
    b.verify additionalTypes = Except.error e := by
  rw [Binder.verify]
  rw [Binder.knownKeys] at h
  rw [h]

theorem verify_eq_of_dup_ok_nested_error {b : Binder} {additionalTypes : List Nat}
    {e : DIError}
    (h1 : b.verifyDuplicates (b.knownKeys additionalTypes) = Except.ok ())
    (h2 : b.verifyNestedLazyDeps = Except.error e) :
    b.verify additionalTypes = Except.error e := by
  rw [Binder.verify]
  rw [Binder.knownKeys] at h1
  rw [h1, h2]

theorem verify_eq_of_missing_error {b : Binder} {additionalTypes : List Nat}
    {e : DIError}
    (h1 : b.verifyDuplicates (b.knownKeys additionalTypes) = Except.ok ())
    (h2 : b.verifyNestedLazyDeps = Except.ok ())
    (h3 : b.verifyMissingDeps (b.knownKeys additionalTypes) = Except.error e) :
    b.verify additionalTypes = Except.error e := by
  rw [Binder.verify]
  rw [Binder.knownKeys] at h1 h3
  rw [h1, h2, h3]

theorem verify_eq_recursive {b : Binder} {additionalTypes : List Nat}
    (h1 : b.verifyDuplicates (b.knownKeys additionalTypes) = Except.ok ())
    (h2 : b.verifyNestedLazyDeps = Except.ok ())
    (h3 : b.verifyMissingDeps (b.knownKeys additionalTypes) = Except.ok ()) :
    b.verify additionalTypes =
      b.verifyRecursiveDeps (b.knownKeys additionalTypes) := by
  rw [Binder.verify]
  rw [Binder.knownKeys] at h1 h3
  rw [h1, h2, h3]
  rw [Binder.knownKeys]

/-- C9: for every type key and every registry state, `Injector::get` returns
the stored value (a clone of it) when the key is present, and fails with
`MissingValue` carrying the requested type's name when it is absent; the
result is always exactly one of these two outcomes, so the lookup never
panics and never substitutes a default value. -/
theorem c9_injector_get_clone_or_missing :
    ∀ (reg : RegMap) (key : Nat) (name : String),
      (∃ v, mapFind key reg = some v ∧
        Injector.get reg key name = Except.ok v) ∨
      (mapFind key reg = none ∧
        Injector.get reg key name = Except.error (DIError.missingValue name)) := by
  intro reg key name
  rcases h : mapFind key reg with _ | v
  · exact Or.inr ⟨rfl, by rw [Injector.get, h]⟩
  · exact Or.inl ⟨v, rfl, by rw [Injector.get, h]⟩

/-! ## Characterisation of the duplicate-detection pass -/

/-- Keys of the Registrations with non-empty dependency lists, in
registration order (the only ones the duplicate scan examines). -/
def nonEmptyDepKeys (g : List (Nat × List Nat)) : List Nat :=
  (g.filter (fun p => ¬ p.2.isEmpty)).map Prod.fst

/-- A key is flagged by the duplicate scan exactly when it heads a
non-empty-dependency Registration and is either already known or occurs at
least twice among such Registrations. -/
def DupCond (add : List Nat) (g : List (Nat × List Nat)) (j : Nat) : Prop :=
  j ∈ nonEmptyDepKeys g ∧ (j ∈ add ∨ 2 ≤ (nonEmptyDepKeys g).count j)

theorem dup_foldl_mem (g : List (Nat × List Nat)) :
    ∀ (a d : List Nat) (j : Nat),
      j ∈ (g.foldl dupStep (a, d)).2 ↔ j ∈ d ∨ DupCond a g j := by
  induction g with
  | nil =>
    intro a d j
    simp [DupCond, nonEmptyDepKeys]
  | cons p g' ih =>
    intro a d j
    obtain ⟨k, deps⟩ := p
    by_cases hemp : deps = []
    · have hstep : dupStep (a, d) (k, deps) = (a, d) := by
        simp [dupStep, hemp]
      rw [List.foldl_cons, hstep, ih]
      have hne : nonEmptyDepKeys ((k, deps) :: g') = nonEmptyDepKeys g' := by
        simp [nonEmptyDepKeys, hemp]
      rw [DupCond, DupCond, hne]
    · have hnekeys : nonEmptyDepKeys ((k, deps) :: g') =
          k :: nonEmptyDepKeys g' := by
        simp [nonEmptyDepKeys, hemp]
      have hmc : j ∈ nonEmptyDepKeys g' ↔ 0 < (nonEmptyDepKeys g').count j :=
        List.count_pos_iff.symm
      by_cases hka : k ∈ a
      · have hstep : dupStep (a, d) (k, deps) = (a, setInsert k d) := by
          simp [dupStep, hemp, hka]
        rw [List.foldl_cons, hstep, ih]
        rw [DupCond, DupCond, hnekeys]
        by_cases hjk : j = k
        · subst hjk
          rw [mem_setInsert]
          simp only [List.mem_cons, List.count_cons_self]
          constructor
          · intro _
            exact Or.inr ⟨Or.inl trivial, Or.inl hka⟩
          · intro _
            exact Or.inl (Or.inl trivial)
        · rw [mem_setInsert, List.count_cons_of_ne hjk]
          simp only [List.mem_cons]
          tauto
      · have hstep : dupStep (a, d) (k, deps) = (setInsert k a, d) := by
          simp [dupStep, hemp, hka]
        rw [List.foldl_cons, hstep, ih]
        rw [DupCond, DupCond, hnekeys]
        by_cases hjk : j = k
        · subst hjk
          simp only [List.mem_cons, List.count_cons_self, mem_setInsert]
          constructor
          · rintro (hd | ⟨hm, _⟩)
            · exact Or.inl hd
            · rw [hmc] at hm
              exact Or.inr ⟨Or.inl trivial, Or.inr (by omega)⟩
          · rintro (hd | ⟨_, hc⟩)
            · exact Or.inl hd
            · rcases hc with hc | hc
              · exact absurd hc hka
              · have hpos : 0 < (nonEmptyDepKeys g').count j := by omega
                exact Or.inr ⟨hmc.2 hpos, Or.inl (Or.inl trivial)⟩
        · rw [List.count_cons_of_ne hjk]
          simp only [List.mem_cons, mem_setInsert]
          constructor
          · rintro (hd | ⟨hm, hc⟩)
            · exact Or.inl hd
            · refine Or.inr ⟨Or.inr hm, ?_⟩
              rcases hc with (he | hc) | hc
              · exact absurd he hjk
              · exact Or.inl hc
              · exact Or.inr hc
          · rintro (hd | ⟨hm, hc⟩)
            · exact Or.inl hd
            · rcases hm with he | hm
              · exact absurd he hjk
              · refine Or.inr ⟨hm, ?_⟩
                rcases hc with hc | hc
                · exact Or.inl (Or.inr hc)
                · exact Or.inr hc

theorem verifyDuplicates_shape (b : Binder) (add : List Nat) :
    b.verifyDuplicates add = Except.ok () ∨
      ∃ D, b.verifyDuplicates add = Except.error (DIError.duplicates D) := by
  rw [Binder.verifyDuplicates]
  by_cases h : ((b.requirementsGraph.foldl dupStep (add, [])).2).isEmpty
  · rw [if_pos h]
    exact Or.inl rfl
  · rw [if_neg h]
    exact Or.inr ⟨_, rfl⟩

theorem verifyDuplicates_ok_iff (b : Binder) (add : List Nat) :
    b.verifyDuplicates add = Except.ok () ↔
      ∀ j, ¬ DupCond add b.requirementsGraph j := by
  rw [Binder.verifyDuplicates]
  by_cases h : ((b.requirementsGraph.foldl dupStep (add, [])).2).isEmpty
  · rw [if_pos h]
    simp only [true_iff]
    rw [List.isEmpty_iff] at h
    intro j hj
    have := (dup_foldl_mem b.requirementsGraph add [] j).2 (Or.inr hj)
    rw [h] at this
    simp at this
  · rw [if_neg h]
    constructor
    · intro he
      exact Except.noConfusion he
    · intro hall
      exfalso
      rw [List.isEmpty_iff] at h
      rcases List.exists_mem_of_ne_nil _ h with ⟨j, hj⟩
      rcases (dup_foldl_mem b.requirementsGraph add [] j).1 hj with hd | hc
      · simp at hd
      · exact hall j hc

theorem verifyDuplicates_error_mem {b : Binder} {add : List Nat} {D : List Nat}
    (h : b.verifyDuplicates add = Except.error (DIError.duplicates D)) :
    (∀ j, j ∈ D ↔ DupCond add b.requirementsGraph j) ∧ ∃ j, j ∈ D := by
  rw [Binder.verifyDuplicates] at h
  by_cases hemp : ((b.requirementsGraph.foldl dupStep (add, [])).2).isEmpty
  · rw [if_pos hemp] at h
    exact Except.noConfusion h
  · rw [if_neg hemp] at h
    have hD : D = (b.requirementsGraph.foldl dupStep (add, [])).2 := by
      have := Except.error.inj h
      cases this
      rfl
    subst hD
    constructor
    · intro j
      rw [dup_foldl_mem b.requirementsGraph add [] j]
      simp
    · rw [List.isEmpty_iff] at hemp
      exact List.exists_mem_of_ne_nil _ hemp

theorem verifyNestedLazyDeps_shape (b : Binder) :
    b.verifyNestedLazyDeps = Except.ok () ∨
      ∃ L, b.verifyNestedLazyDeps = Except.error (DIError.nestedLazy L) := by
  rw [Binder.verifyNestedLazyDeps]
  by_cases h :
      (((b.requirementsGraph.filter
          (fun p => p.1 ∈ b.lazyTypes && p.2.any (fun x => x ∈ b.lazyTypes))).map
        Prod.fst)).isEmpty
  · rw [if_pos h]
    exact Or.inl rfl
  · rw [if_neg h]
    exact Or.inr ⟨_, rfl⟩

theorem verifyMissingDeps_shape (b : Binder) (add : List Nat) :
    b.verifyMissingDeps add = Except.ok () ∨
      ∃ items, b.verifyMissingDeps add =
        Except.error (DIError.missingDeps items) := by
  rw [Binder.verifyMissingDeps]
  by_cases h :
      (b.requirementsGraph.filterMap (fun p =>
        let missing :=
          (p.2.filter (fun x =>
            ¬ x ∈ add ++ b.requirementsGraph.map Prod.fst)).filterMap
            (fun x => mapFind x b.typeNames)
        if missing.isEmpty then none
        else (mapFind p.1 b.typeNames).map
          (fun name => (p.1, name, mapFind p.1 b.debugLines, missing)))).isEmpty
  · rw [if_pos h]
    exact Or.inl rfl
  · rw [if_neg h]
    exact Or.inr ⟨_, rfl⟩

theorem verify_dup_error_iff (b : Binder) (extra : List Nat) :
    (∃ D, b.verify extra = Except.error (DIError.duplicates D)) ↔
      ∃ j, DupCond (b.knownKeys extra) b.requirementsGraph j := by
  constructor
  · rintro ⟨D, hD⟩
    rcases verifyDuplicates_shape b (b.knownKeys extra) with hok | ⟨D', hD'⟩
    · exfalso
      rcases verifyNestedLazyDeps_shape b with hn | ⟨L, hn⟩
      · rcases verifyMissingDeps_shape b (b.knownKeys extra) with hm | ⟨it, hm⟩
        · rcases verifyRecursiveDeps_shape b (b.knownKeys extra) with hr | ⟨L, hr⟩
          · rw [verify_eq_recursive hok hn hm, hr] at hD
            exact Except.noConfusion hD
          · rw [verify_eq_recursive hok hn hm, hr] at hD
            exact DIError.noConfusion (Except.error.inj hD)
        · rw [verify_eq_of_missing_error hok hn hm] at hD
          exact DIError.noConfusion (Except.error.inj hD)
      · rw [verify_eq_of_dup_ok_nested_error hok hn] at hD
        exact DIError.noConfusion (Except.error.inj hD)
    · obtain ⟨hmem, j, hj⟩ := verifyDuplicates_error_mem hD'
      exact ⟨j, (hmem j).1 hj⟩
  · rintro ⟨j, hj⟩
    rcases verifyDuplicates_shape b (b.knownKeys extra) with hok | ⟨D, hD⟩
    · exact absurd hj ((verifyDuplicates_ok_iff b (b.knownKeys extra)).1 hok j)
    · exact ⟨D, verify_eq_of_dup_error hD⟩

theorem build_eq_of_verify_error {b : Binder} {e : DIError}
    (h : b.verify (b.staticValues.map Prod.fst) = Except.error e) :
    b.build = Except.error e := by
  rw [Binder.build, h]

theorem build_eq_traverse {b : Binder}
    (h : b.verify (b.staticValues.map Prod.fst) = Except.ok ()) :
    b.build = b.traverseCore (b.staticValues.map Prod.fst)
      (buildStep (collectMap b.builders)) buildMsg b.staticValues := by
  rw [Binder.build, h]

theorem verify_error_dup_from_pass {b : Binder} {extra : List Nat} {D : List Nat}
    (hD : b.verify extra = Except.error (DIError.duplicates D)) :
    b.verifyDuplicates (b.knownKeys extra) =
      Except.error (DIError.duplicates D) := by
  rcases verifyDuplicates_shape b (b.knownKeys extra) with hok | ⟨D', hD'⟩
  · exfalso
    rcases verifyNestedLazyDeps_shape b with hn | ⟨L, hn⟩
    · rcases verifyMissingDeps_shape b (b.knownKeys extra) with hm | ⟨it, hm⟩
      · rcases verifyRecursiveDeps_shape b (b.knownKeys extra) with hr | ⟨L, hr⟩
        · rw [verify_eq_recursive hok hn hm, hr] at hD
          exact Except.noConfusion hD
        · rw [verify_eq_recursive hok hn hm, hr] at hD
          exact DIError.noConfusion (Except.error.inj hD)
      · rw [verify_eq_of_missing_error hok hn hm] at hD
        exact DIError.noConfusion (Except.error.inj hD)
    · rw [verify_eq_of_dup_ok_nested_error hok hn] at hD
      exact DIError.noConfusion (Except.error.inj hD)
  · have := verify_eq_of_dup_error hD'
    rw [this] at hD
    have := Except.error.inj hD
    rw [hD']
    rw [← this]

/-- Example for the duplicate check: the same key (5) registered twice with a
non-empty dependency list, next to an instance of key 1. -/
def dupExample : Binder :=
  ((Binder.empty.instanceValue 1 "u32" (Value.nat 1)).injectFnRaw 5
      "DuplicateStruct" (fun _ => Except.ok Value.unit) [(1, "u32")] none
      false).injectFnRaw 5 "DuplicateStruct" (fun _ => Except.ok Value.unit)
    [(1, "u32")] none false

/-- C4: `verify`/`build` fails with a duplicate-registration error naming the
offending keys if and only if some key of a non-empty-dependency Registration
is seen twice by the registration-order scan whose seen set is seeded with
the already-known keys; the error lists exactly the offending keys;
zero-dependency Registrations (plain `instance` calls) are exempt, so
re-supplying an instance of the same type silently overwrites the previous
value (last-write-wins) instead of erroring. -/
theorem c4_duplicate_check :
    (∀ (b : Binder) (extra : List Nat),
      (∃ D, b.verify extra = Except.error (DIError.duplicates D)) ↔
        ∃ j, j ∈ nonEmptyDepKeys b.requirementsGraph ∧
          (j ∈ b.knownKeys extra ∨
            2 ≤ (nonEmptyDepKeys b.requirementsGraph).count j)) ∧
    (∀ (b : Binder) (extra : List Nat) (D : List Nat),
      b.verify extra = Except.error (DIError.duplicates D) →
        ∀ j, j ∈ D ↔ j ∈ nonEmptyDepKeys b.requirementsGraph ∧
          (j ∈ b.knownKeys extra ∨
            2 ≤ (nonEmptyDepKeys b.requirementsGraph).count j)) ∧
    (∀ (b : Binder) (e : DIError),
      b.verify (b.staticValues.map Prod.fst) = Except.error e →
        b.build = Except.error e) ∧
    (∀ (b : Binder) (k : Nat) (n : String) (v1 v2 : Value) (add : List Nat),
      mapFind k ((b.instanceValue k n v1).instanceValue k n v2).staticValues =
          some v2 ∧
        ((b.instanceValue k n v1).instanceValue k n v2).verifyDuplicates add =
          b.verifyDuplicates add) := by
  refine ⟨fun b extra => verify_dup_error_iff b extra, ?_, ?_, ?_⟩
  · intro b extra D hD j
    exact (verifyDuplicates_error_mem (verify_error_dup_from_pass hD)).1 j
  · intro b e h
    exact build_eq_of_verify_error h
  · intro b k n v1 v2 add
    constructor
    · show mapFind k (mapInsert k v2 (mapInsert k v1 b.staticValues)) = some v2
      exact mapFind_mapInsert_self _ _ _
    · rw [Binder.verifyDuplicates, Binder.verifyDuplicates]
      have hg : ((b.instanceValue k n v1).instanceValue k n v2).requirementsGraph
          = b.requirementsGraph ++ [(k, []), (k, [])] := by
        show (b.requirementsGraph ++ [(k, [])]) ++ [(k, [])] = _
        simp
      rw [hg]
      have hfold : ∀ st : List Nat × List Nat,
          List.foldl dupStep st (b.requirementsGraph ++ [(k, []), (k, [])]) =
            List.foldl dupStep st b.requirementsGraph := by
        intro st
        rw [List.foldl_append]
        simp [dupStep]
      rw [hfold]

/-- Witness for C4 at the concrete duplicate binder: `verify` reports the
duplicate key 5, and the characterisation applies to it. -/
theorem c4_witness :
    dupExample.verify [] = Except.error (DIError.duplicates [5]) ∧
      (5 ∈ ([5] : List Nat) ↔
        5 ∈ nonEmptyDepKeys dupExample.requirementsGraph ∧
          (5 ∈ dupExample.knownKeys [] ∨
            2 ≤ (nonEmptyDepKeys dupExample.requirementsGraph).count 5)) :=
  ⟨by rfl, c4_duplicate_check.2.1 dupExample [] [5] (by rfl) 5⟩

theorem verifyNestedLazyDeps_ok_iff (b : Binder) :
    b.verifyNestedLazyDeps = Except.ok () ↔
      ∀ p ∈ b.requirementsGraph, p.1 ∈ b.lazyTypes →
        ∀ x ∈ p.2, ¬ x ∈ b.lazyTypes := by
  rw [Binder.verifyNestedLazyDeps]
  by_cases h :
      (((b.requirementsGraph.filter
          (fun p => p.1 ∈ b.lazyTypes && p.2.any (fun x => x ∈ b.lazyTypes))).map
        Prod.fst)).isEmpty
  · rw [if_pos h]
    simp only [true_iff]
    rw [List.isEmpty_iff, List.map_eq_nil_iff, List.filter_eq_nil_iff] at h
    intro p hp hlazy x hx hxl
    have := h p hp
    simp only [Bool.and_eq_true, decide_eq_true_eq, List.any_eq_true] at this
    exact this ⟨hlazy, x, hx, hxl⟩
  · rw [if_neg h]
    constructor
    · intro he
      exact Except.noConfusion he
    · intro hall
      exfalso
      apply h
      rw [List.isEmpty_iff, List.map_eq_nil_iff, List.filter_eq_nil_iff]
      intro p hp
      simp only [Bool.and_eq_true, decide_eq_true_eq, List.any_eq_true,
        not_and, not_exists]
      intro hlazy
      intro x
      intro hx
      exact hall p hp hlazy x hx

theorem verifyNestedLazyDeps_error_mem {b : Binder} {L : List Nat}
    (h : b.verifyNestedLazyDeps = Except.error (DIError.nestedLazy L)) :
    ∀ j, j ∈ L ↔ ∃ deps, (j, deps) ∈ b.requirementsGraph ∧
      j ∈ b.lazyTypes ∧ ∃ x ∈ deps, x ∈ b.lazyTypes := by
  rw [Binder.verifyNestedLazyDeps] at h
  by_cases hemp :
      (((b.requirementsGraph.filter
          (fun p => p.1 ∈ b.lazyTypes && p.2.any (fun x => x ∈ b.lazyTypes))).map
        Prod.fst)).isEmpty
  · rw [if_pos hemp] at h
    exact Except.noConfusion h
  · rw [if_neg hemp] at h
    have hL : L = ((b.requirementsGraph.filter
        (fun p => p.1 ∈ b.lazyTypes && p.2.any (fun x => x ∈ b.lazyTypes))).map
      Prod.fst) := by
      have := Except.error.inj h
      cases this
      rfl
    subst hL
    intro j
    rw [List.mem_map]
    constructor
    · rintro ⟨p, hp, hj⟩
      rw [List.mem_filter] at hp
      obtain ⟨hpg, hpc⟩ := hp
      simp only [Bool.and_eq_true, decide_eq_true_eq, List.any_eq_true] at hpc
      obtain ⟨hl, x, hx, hxl⟩ := hpc
      subst hj
      exact ⟨p.2, by simpa using hpg, hl, x, hx, hxl⟩
    · rintro ⟨deps, hmem, hl, x, hx, hxl⟩
      refine ⟨(j, deps), ?_, rfl⟩
      rw [List.mem_filter]
      refine ⟨hmem, ?_⟩
      simp only [Bool.and_eq_true, decide_eq_true_eq, List.any_eq_true]
      exact ⟨hl, x, hx, hxl⟩

/-- Example for the lazy-nesting check: `Lazy<Lazy<T>>` (key 9, lazy, depends
on key 8) registered alongside `Lazy<T>` (key 8, lazy, depends on 7), `T`
(key 7, depends on 1) and an instance of key 1. -/
def lazyNestExample : Binder :=
  (((Binder.empty.injectFnRaw 8 "Lazy<MissingStruct>"
        (fun _ => Except.ok (Value.lazyRef 7)) [(7, "MissingStruct")] none
        true).injectFnRaw 9 "Lazy<Lazy<MissingStruct>>"
        (fun _ => Except.ok (Value.lazyRef 8)) [(8, "Lazy<MissingStruct>")] none
        true).injectFnRaw 7 "MissingStruct" (fun _ => Except.ok Value.unit)
      [(1, "u32")] none false).instanceValue 1 "u32" (Value.nat 1)

/-- C7: a binder in which a lazy-marked component depends on a lazy-marked
component fails the lazy-nesting validation pass with an error listing
exactly the offending component keys (and, the earlier duplicate pass
passing, `verify` fails the same way); a binder with no lazy-on-lazy
dependency passes this pass. Concretely, registering `Lazy<Lazy<T>>`
alongside `Lazy<T>` makes `build` fail with the offending key. -/
theorem c7_illegal_lazy_nesting :
    (∀ b : Binder, b.verifyNestedLazyDeps = Except.ok () ↔
      ∀ p ∈ b.requirementsGraph, p.1 ∈ b.lazyTypes →
        ∀ x ∈ p.2, ¬ x ∈ b.lazyTypes) ∧
    (∀ (b : Binder) (L : List Nat),
      b.verifyNestedLazyDeps = Except.error (DIError.nestedLazy L) →
        ∀ j, j ∈ L ↔ ∃ deps, (j, deps) ∈ b.requirementsGraph ∧
          j ∈ b.lazyTypes ∧ ∃ x ∈ deps, x ∈ b.lazyTypes) ∧
    (∀ (b : Binder) (extra : List Nat),
      b.verifyDuplicates (b.knownKeys extra) = Except.ok () →
        ((∃ L, b.verify extra = Except.error (DIError.nestedLazy L)) ↔
          ¬ ∀ p ∈ b.requirementsGraph, p.1 ∈ b.lazyTypes →
            ∀ x ∈ p.2, ¬ x ∈ b.lazyTypes)) ∧
    lazyNestExample.build = Except.error (DIError.nestedLazy [9]) := by
  refine ⟨verifyNestedLazyDeps_ok_iff, fun b L h => verifyNestedLazyDeps_error_mem h,
    ?_, by rfl⟩
  intro b extra hdup
  constructor
  · rintro ⟨L, hL⟩
    intro hall
    have hok := (verifyNestedLazyDeps_ok_iff b).2 hall
    rcases verifyMissingDeps_shape b (b.knownKeys extra) with hm | ⟨it, hm⟩
    · rcases verifyRecursiveDeps_shape b (b.knownKeys extra) with hr | ⟨L', hr⟩
      · rw [verify_eq_recursive hdup hok hm, hr] at hL
        exact Except.noConfusion hL
      · rw [verify_eq_recursive hdup hok hm, hr] at hL
        exact DIError.noConfusion (Except.error.inj hL)
    · rw [verify_eq_of_missing_error hdup hok hm] at hL
      exact DIError.noConfusion (Except.error.inj hL)
  · intro hnot
    rcases verifyNestedLazyDeps_shape b with hok | ⟨L, hL⟩
    · exact absurd ((verifyNestedLazyDeps_ok_iff b).1 hok) hnot
    · exact ⟨L, verify_eq_of_dup_ok_nested_error hdup hL⟩

/-- Witness for C7: the lazy-nesting example fails, its error content is
characterised at key 9, and a lazy-free binder passes the pass. -/
theorem c7_witness :
    (9 ∈ ([9] : List Nat) ↔ ∃ deps,
      (9, deps) ∈ lazyNestExample.requirementsGraph ∧
        9 ∈ lazyNestExample.lazyTypes ∧ ∃ x ∈ deps, x ∈ lazyNestExample.lazyTypes) ∧
      dupExample.verifyNestedLazyDeps = Except.ok () :=
  ⟨c7_illegal_lazy_nesting.2.1 lazyNestExample [9] (by rfl) 9,
    (c7_illegal_lazy_nesting.1 dupExample).2 (by decide)⟩

/-! ## Characterisation of the missing-dependency pass -/

/-- Names recorded for every graph entry and every dependency (always true
for binders built through `instance`/`inject_fn_raw`, which record them). -/
def NamesRecorded (b : Binder) : Prop :=
  ∀ p ∈ b.requirementsGraph, (mapFind p.1 b.typeNames).isSome ∧
    ∀ x ∈ p.2, (mapFind x b.typeNames).isSome

/-- The entry the missing-dependency pass computes for one Registration. -/
def missingEntryFor (b : Binder) (add : List Nat) (p : Nat × List Nat) :
    Option (Nat × String × Option String × List String) :=
  let missing :=
    (p.2.filter (fun x => ¬ x ∈ add ++ b.requirementsGraph.map Prod.fst)).filterMap
      (fun x => mapFind x b.typeNames)
  if missing.isEmpty then none
  else (mapFind p.1 b.typeNames).map
    (fun name => (p.1, name, mapFind p.1 b.debugLines, missing))

theorem verifyMissingDeps_eq (b : Binder) (add : List Nat) :
    b.verifyMissingDeps add =
      (if (b.requirementsGraph.filterMap (missingEntryFor b add)).isEmpty
        then Except.ok ()
        else Except.error (DIError.missingDeps
          (b.requirementsGraph.filterMap (missingEntryFor b add)))) := rfl

theorem missingEntryFor_eq_none_iff (b : Binder) (add : List Nat)
    (p : Nat × List Nat) (hname : (mapFind p.1 b.typeNames).isSome)
    (hdeps : ∀ x ∈ p.2, (mapFind x b.typeNames).isSome) :
    missingEntryFor b add p = none ↔
      ∀ x ∈ p.2, x ∈ add ++ b.requirementsGraph.map Prod.fst := by
  rw [missingEntryFor]
  by_cases hm :
      ((p.2.filter (fun x =>
        ¬ x ∈ add ++ b.requirementsGraph.map Prod.fst)).filterMap
          (fun x => mapFind x b.typeNames)).isEmpty
  · rw [if_pos hm]
    simp only [true_iff]
    rw [List.isEmpty_iff, List.filterMap_eq_nil_iff] at hm
    intro x hx
    by_contra hnx
    have hfil : x ∈ p.2.filter (fun x =>
        ¬ x ∈ add ++ b.requirementsGraph.map Prod.fst) := by
      rw [List.mem_filter]
      exact ⟨hx, by simpa using hnx⟩
    have hnone := hm x hfil
    have h2 := hdeps x hx
    rw [hnone] at h2
    simp at h2
  · rw [if_neg hm]
    rcases Option.isSome_iff_exists.1 hname with ⟨name, hn⟩
    rw [hn]
    constructor
    · intro h
      exact Option.noConfusion h
    · intro hall
      exfalso
      apply hm
      rw [List.isEmpty_iff, List.filterMap_eq_nil_iff]
      intro x hxf
      rw [List.mem_filter] at hxf
      have := hall x hxf.1
      simp [this] at hxf
  
theorem verifyMissingDeps_ok_iff {b : Binder} (add : List Nat)
    (hnames : NamesRecorded b) :
    b.verifyMissingDeps add = Except.ok () ↔
      ∀ p ∈ b.requirementsGraph, ∀ x ∈ p.2,
        x ∈ add ++ b.requirementsGraph.map Prod.fst := by
  rw [verifyMissingDeps_eq]
  by_cases h : (b.requirementsGraph.filterMap (missingEntryFor b add)).isEmpty
  · rw [if_pos h]
    simp only [true_iff]
    rw [List.isEmpty_iff, List.filterMap_eq_nil_iff] at h
    intro p hp
    exact (missingEntryFor_eq_none_iff b add p (hnames p hp).1 (hnames p hp).2).1
      (h p hp)
  · rw [if_neg h]
    constructor
    · intro he
      exact Except.noConfusion he
    · intro hall
      exfalso
      apply h
      rw [List.isEmpty_iff, List.filterMap_eq_nil_iff]
      intro p hp
      exact (missingEntryFor_eq_none_iff b add p (hnames p hp).1 (hnames p hp).2).2
        (hall p hp)

theorem verifyMissingDeps_error_mem {b : Binder} {add : List Nat}
    {items : List (Nat × String × Option String × List String)}
    (h : b.verifyMissingDeps add = Except.error (DIError.missingDeps items)) :
    ∀ e, e ∈ items ↔ ∃ p ∈ b.requirementsGraph,
      missingEntryFor b add p = some e := by
  rw [verifyMissingDeps_eq] at h
  by_cases hemp : (b.requirementsGraph.filterMap (missingEntryFor b add)).isEmpty
  · rw [if_pos hemp] at h
    exact Except.noConfusion h
  · rw [if_neg hemp] at h
    have hit : items = b.requirementsGraph.filterMap (missingEntryFor b add) := by
      have := Except.error.inj h
      cases this
      rfl
    subst hit
    intro e
    rw [List.mem_filterMap]

theorem missingEntryFor_some {b : Binder} {add : List Nat} {p : Nat × List Nat}
    {e : Nat × String × Option String × List String}
    (h : missingEntryFor b add p = some e) :
    e.1 = p.1 ∧ ∃ x ∈ p.2, ¬ x ∈ add ++ b.requirementsGraph.map Prod.fst := by
  rw [missingEntryFor] at h
  by_cases hm :
      ((p.2.filter (fun x =>
        ¬ x ∈ add ++ b.requirementsGraph.map Prod.fst)).filterMap
          (fun x => mapFind x b.typeNames)).isEmpty
  · rw [if_pos hm] at h
    exact Option.noConfusion h
  · rw [if_neg hm] at h
    rcases hn : mapFind p.1 b.typeNames with _ | name
    · rw [hn] at h
      exact Option.noConfusion h
    · rw [hn] at h
      have he : e = (p.1, name, mapFind p.1 b.debugLines, _) := (Option.some.inj h).symm
      constructor
      · rw [he]
      · rw [List.isEmpty_iff] at hm
        rcases hfe : p.2.filter (fun x =>
            ¬ x ∈ add ++ b.requirementsGraph.map Prod.fst) with _ | ⟨x, rest⟩
        · exfalso
          apply hm
          rw [hfe]
          rfl
        · have hx : x ∈ p.2.filter (fun x =>
              ¬ x ∈ add ++ b.requirementsGraph.map Prod.fst) := by
            rw [hfe]; exact List.mem_cons_self _ _
          rw [List.mem_filter] at hx
          exact ⟨x, hx.1, by simpa using hx.2⟩

theorem verify_error_missing_from_pass {b : Binder} {extra : List Nat}
    {items : List (Nat × String × Option String × List String)}
    (hD : b.verify extra = Except.error (DIError.missingDeps items)) :
    b.verifyMissingDeps (b.knownKeys extra) =
      Except.error (DIError.missingDeps items) := by
  rcases verifyDuplicates_shape b (b.knownKeys extra) with hok | ⟨D', hD'⟩
  · rcases verifyNestedLazyDeps_shape b with hn | ⟨L, hn⟩
    · rcases verifyMissingDeps_shape b (b.knownKeys extra) with hm | ⟨it, hm⟩
      · exfalso
        rcases verifyRecursiveDeps_shape b (b.knownKeys extra) with hr | ⟨L', hr⟩
        · rw [verify_eq_recursive hok hn hm, hr] at hD
          exact Except.noConfusion hD
        · rw [verify_eq_recursive hok hn hm, hr] at hD
          exact DIError.noConfusion (Except.error.inj hD)
      · have := verify_eq_of_missing_error hok hn hm
        rw [this] at hD
        have heq := Except.error.inj hD
        rw [hm]
        rw [← heq]
    · exfalso
      rw [verify_eq_of_dup_ok_nested_error hok hn] at hD
      exact DIError.noConfusion (Except.error.inj hD)
  · exfalso
    rw [verify_eq_of_dup_error hD'] at hD
    exact DIError.noConfusion (Except.error.inj hD)

/-- Example for the missing-dependency check: component 6 depends on 4, 3 and
the never-registered key 99; components 4 and 3 resolve fine from the
instance of key 1. -/
def missingExample : Binder :=
  (((Binder.empty.injectFnRaw 6 "StructWithoutDep"
        (fun _ => Except.ok Value.unit)
        [(4, "B"), (3, "A"), (99, "MissingDep")] none false).injectFnRaw 4 "B"
        (fun _ => Except.ok Value.unit) [(3, "A"), (1, "u32")] none
        false).injectFnRaw 3 "A" (fun _ => Except.ok Value.unit) [(1, "u32")]
      none false).instanceValue 1 "u32" (Value.nat 1)

/-- C5: when a Registration has a dependency key appearing neither among the
known (extra plus static) keys nor among the registered keys, `verify` fails
with a missing-dependencies error; the error reports, per offending
component, its key, its name, its recorded debug site if any, and the names
of exactly its missing dependencies, and a component whose dependencies are
all satisfiable never appears in it. Concretely, `missingExample.build`
reports exactly component 6 with missing dependency name "MissingDep". -/
theorem c5_missing_dependencies :
    (∀ (b : Binder) (add : List Nat), NamesRecorded b →
      (b.verifyMissingDeps add = Except.ok () ↔
        ∀ p ∈ b.requirementsGraph, ∀ x ∈ p.2,
          x ∈ add ++ b.requirementsGraph.map Prod.fst)) ∧
    (∀ (b : Binder) (extra : List Nat)
      (items : List (Nat × String × Option String × List String)),
      b.verify extra = Except.error (DIError.missingDeps items) →
        ∀ e, e ∈ items ↔ ∃ p ∈ b.requirementsGraph,
          missingEntryFor b (b.knownKeys extra) p = some e) ∧
    (∀ (b : Binder) (extra : List Nat)
      (items : List (Nat × String × Option String × List String)) (k : Nat),
      b.verify extra = Except.error (DIError.missingDeps items) →
        (∀ p ∈ b.requirementsGraph, p.1 = k → ∀ x ∈ p.2,
          x ∈ b.knownKeys extra ++ b.requirementsGraph.map Prod.fst) →
        ∀ name dbg miss, ¬ (k, name, dbg, miss) ∈ items) ∧
    missingExample.build = Except.error (DIError.missingDeps
      [(6, "StructWithoutDep", none, ["MissingDep"])]) := by
  refine ⟨fun b add h => verifyMissingDeps_ok_iff add h, ?_, ?_, by rfl⟩
  · intro b extra items hD e
    exact verifyMissingDeps_error_mem (verify_error_missing_from_pass hD) e
  · intro b extra items k hD hsat name dbg miss hmem
    have hchar := verifyMissingDeps_error_mem (verify_error_missing_from_pass hD)
    rcases (hchar _).1 hmem with ⟨p, hp, he⟩
    obtain ⟨he1, x, hx, hnx⟩ := missingEntryFor_some he
    have hk : k = p.1 := he1
    exact hnx (hsat p hp hk.symm x hx)

/-- Witness for C5: the concrete example fails as stated, the
characterisation applies to its component 6, and the satisfiable component 4
is excluded from the error. -/
theorem c5_witness :
    ((6, "StructWithoutDep", none, ["MissingDep"]) ∈
        [((6 : Nat), "StructWithoutDep", (none : Option String),
          ["MissingDep"])] ↔
      ∃ p ∈ missingExample.requirementsGraph,
        missingEntryFor missingExample (missingExample.knownKeys
          (missingExample.staticValues.map Prod.fst)) p =
          some (6, "StructWithoutDep", none, ["MissingDep"])) ∧
    (∀ name dbg miss, ¬ (4, name, dbg, miss) ∈
      [((6 : Nat), "StructWithoutDep", (none : Option String),
        ["MissingDep"])]) := by
  constructor
  · exact c5_missing_dependencies.2.1 missingExample
      (missingExample.staticValues.map Prod.fst) _ (by rfl)
      (6, "StructWithoutDep", none, ["MissingDep"])
  · exact c5_missing_dependencies.2.2.1 missingExample
      (missingExample.staticValues.map Prod.fst) _ 4 (by rfl) (by decide)

/-- Example with both a duplicate (key 5 registered twice with non-empty
dependencies) and a missing dependency (key 6 depends on unregistered 99). -/
def dupMissingExample : Binder :=
  (((Binder.empty.injectFnRaw 5 "Dup" (fun _ => Except.ok Value.unit)
        [(1, "u32")] none false).injectFnRaw 5 "Dup"
        (fun _ => Except.ok Value.unit) [(1, "u32")] none
        false).injectFnRaw 6 "NoDep" (fun _ => Except.ok Value.unit)
      [(99, "Missing")] none false).instanceValue 1 "u32" (Value.nat 1)

/-- Example with two independently offending components (6 depends on the
unregistered 99, 7 on the unregistered 98). -/
def twoMissingExample : Binder :=
  ((Binder.empty.injectFnRaw 6 "NoDepA" (fun _ => Except.ok Value.unit)
      [(99, "MissingA")] none false).injectFnRaw 7 "NoDepB"
      (fun _ => Except.ok Value.unit) [(98, "MissingB")] none
      false).instanceValue 1 "u32" (Value.nat 1)

/-- C6: the validation passes run in the fixed order duplicates, lazy
nesting, missing dependencies, cycles; the first failing pass aborts the
whole `verify` call, so a binder exhibiting both a duplicate and a missing
dependency reports only the duplicate error even though the missing pass
alone would fail on it; and within a pass every offender is reported in the
single returned error (the two-offender example lists both components). -/
theorem c6_validation_order :
    (∀ (b : Binder) (extra : List Nat) (e : DIError),
      b.verifyDuplicates (b.knownKeys extra) = Except.error e →
        b.verify extra = Except.error e) ∧
    (∀ (b : Binder) (extra : List Nat) (e : DIError),
      b.verifyDuplicates (b.knownKeys extra) = Except.ok () →
        b.verifyNestedLazyDeps = Except.error e →
          b.verify extra = Except.error e) ∧
    (∀ (b : Binder) (extra : List Nat) (e : DIError),
      b.verifyDuplicates (b.knownKeys extra) = Except.ok () →
        b.verifyNestedLazyDeps = Except.ok () →
          b.verifyMissingDeps (b.knownKeys extra) = Except.error e →
            b.verify extra = Except.error e) ∧
    (∀ (b : Binder) (extra : List Nat),
      b.verifyDuplicates (b.knownKeys extra) = Except.ok () →
        b.verifyNestedLazyDeps = Except.ok () →
          b.verifyMissingDeps (b.knownKeys extra) = Except.ok () →
            b.verify extra = b.verifyRecursiveDeps (b.knownKeys extra)) ∧
    (dupMissingExample.verifyMissingDeps (dupMissingExample.knownKeys []) =
        Except.error (DIError.missingDeps [(6, "NoDep", none, ["Missing"])]) ∧
      dupMissingExample.verify [] = Except.error (DIError.duplicates [5])) ∧
    twoMissingExample.verify [] = Except.error (DIError.missingDeps
      [(6, "NoDepA", none, ["MissingA"]), (7, "NoDepB", none, ["MissingB"])]) := by
  refine ⟨?_, ?_, ?_, ?_, ⟨by rfl, by rfl⟩, by rfl⟩
  · intro b extra e h
    exact verify_eq_of_dup_error h
  · intro b extra e h1 h2
    exact verify_eq_of_dup_ok_nested_error h1 h2
  · intro b extra e h1 h2 h3
    exact verify_eq_of_missing_error h1 h2 h3
  · intro b extra h1 h2 h3
    exact verify_eq_recursive h1 h2 h3

/-- Witness for C6: the order lemmas applied at the concrete missing-deps
example (whose first two passes succeed and whose missing pass fails). -/
theorem c6_witness :
    missingExample.verify [] = Except.error (DIError.missingDeps
      [(6, "StructWithoutDep", none, ["MissingDep"])]) :=
  c6_validation_order.2.2.1 missingExample [] _ (by rfl) (by rfl) (by rfl)

/-- C10: on a binder whose requirements graph has no non-lazy Registration
entry the remaining-dependency map starts empty, so the wave loop breaks on
its first round and the cycle check fails with a dependency-cycle error
naming no types; in particular `verify` and `build` on a freshly created,
completely empty binder return this error instead of succeeding with an
empty registry. -/
theorem c10_no_nonlazy_entries :
    (∀ (b : Binder) (additional : List Nat),
      (∀ p ∈ b.requirementsGraph, p.1 ∈ b.resolvedLazySet) →
        b.verifyRecursiveDeps additional =
          Except.error (DIError.cycle cycleMsg [])) ∧
    Binder.empty.verify [] = Except.error (DIError.cycle cycleMsg []) ∧
    Binder.empty.build = Except.error (DIError.cycle cycleMsg []) := by
  refine ⟨?_, by rfl, by rfl⟩
  intro b additional h
  have hfil : b.requirementsGraph.filter
      (fun p => ¬ p.1 ∈ b.resolvedLazySet) = [] := by
    rw [List.filter_eq_nil_iff]
    intro p hp
    simpa using h p hp
  have hpend : b.pendingDeps = [] := by
    rw [Binder.pendingDeps, hfil]
    rfl
  rw [Binder.verifyRecursiveDeps, Binder.traverseCore, foldlM_ok_of_ok, hpend]
  rfl

/-- Witness for C10: a binder whose only registration is lazy-marked (no
non-lazy entry) hits the empty-map stall. -/
theorem c10_witness :
    (Binder.empty.injectFnRaw 8 "Lazy<T>" (fun _ => Except.ok (Value.lazyRef 7))
        [(7, "T")] none true).verifyRecursiveDeps [] =
      Except.error (DIError.cycle cycleMsg []) :=
  c10_no_nonlazy_entries.1 _ [] (by decide)

/-! ## Semantic reachability and the cycle error -/

/-- Keys available when the wave loop starts: the (deduplicated) additional
keys plus the lazy-marked registration keys. -/
def Binder.baseAvail (b : Binder) (additional : List Nat) : List Nat :=
  sortedDedup additional ++ b.resolvedLazySet

/-- Semantic resolvability: a key is reachable when it is available at the
start, or heads a pending entry all of whose dependencies are reachable.
This is the least fixed point the wave process is meant to compute. -/
inductive Reachable (g : List (Nat × List Nat)) (base : List Nat) : Nat → Prop where
  | base : ∀ {k}, k ∈ base → Reachable g base k
  | step : ∀ {k deps}, (k, deps) ∈ g → (∀ d ∈ deps, Reachable g base d) →
      Reachable g base k

theorem entry_unique_of_nodup {α : Type} {g : List (Nat × α)}
    (hnd : (g.map Prod.fst).Nodup) {k : Nat} {a b : α} (ha : (k, a) ∈ g)
    (hb : (k, b) ∈ g) : a = b :=
  Option.some.inj
    ((mapFind_of_mem_nodup hnd ha).symm.trans (mapFind_of_mem_nodup hnd hb))

theorem reachable_inv {g : List (Nat × List Nat)} {base : List Nat} {k : Nat}
    (h : Reachable g base k) : k ∈ base ∨ ∃ deps, (k, deps) ∈ g := by
  cases h with
  | base hb => exact Or.inl hb
  | step hmem _ => exact Or.inr ⟨_, hmem⟩

theorem waveLoop_dry_cycle_char (g : List (Nat × List Nat)) (base : List Nat)
    (hgnd : (g.map Prod.fst).Nodup) :
    ∀ (fuel : Nat) (avail : List Nat) (left : List (Nat × List Nat)),
      left.length < fuel →
      (∀ p ∈ left, p ∈ g) →
      (∀ k ∈ base, k ∈ avail) →
      (∀ k ∈ avail, Reachable g base k) →
      (∀ p ∈ g, ¬ p.1 ∈ left.map Prod.fst → p.1 ∈ avail) →
      (∀ p ∈ left, p.1 ∈ avail → p.2 = []) →
      ∀ L, waveLoop (fun _ u => Except.ok u) cycleMsg fuel avail left () =
          Except.error (DIError.cycle cycleMsg L) →
        ∀ j, j ∈ L ↔ j ∈ left.map Prod.fst ∧ ¬ Reachable g base j := by
  intro fuel
  induction fuel with
  | zero =>
    intro avail left hlen
    omega
  | succ fuel ih =>
    intro avail left hlen hsub hbase hav hrem hsep L hw j
    rw [waveLoop] at hw
    rw [foldlM_ok_of_ok] at hw
    set resolved :=
      (left.filter (fun p => p.2.all (fun d => d ∈ avail))).map Prod.fst with hres
    set left' := left.filter (fun p => ¬ p.1 ∈ resolved) with hleft'
    simp only [] at hw
    by_cases hstall : left'.length = left.length
    · rw [if_pos hstall] at hw
      have hL : L = left'.map Prod.fst := by
        have := Except.error.inj hw
        cases this
        rfl
      have heq : left' = left :=
        List.Sublist.eq_of_length (List.filter_sublist _) hstall
      -- at a stall every remaining entry has an unavailable dependency
      have hblocked : ∀ p ∈ left, ∃ d ∈ p.2, ¬ d ∈ avail := by
        intro p hp
        have hp' : p ∈ left' := by rw [heq]; exact hp
        rw [hleft', List.mem_filter] at hp'
        by_contra hnone
        push_neg at hnone
        have hall : p.2.all (fun d => d ∈ avail) = true := by
          rw [List.all_eq_true]
          intro d hd
          simpa using hnone d hd
        have : p.1 ∈ resolved := by
          rw [hres]
          exact List.mem_map.2 ⟨p, List.mem_filter.2 ⟨hp, hall⟩, rfl⟩
        simp [this] at hp'
      -- anything reachable has left the remaining map
      have hreach_out : ∀ k, Reachable g base k → ¬ k ∈ left.map Prod.fst := by
        intro k hk
        induction hk with
        | base hb =>
          intro hmem
          rcases List.mem_map.1 hmem with ⟨p, hp, hp1⟩
          have hpav : p.1 ∈ avail := by rw [hp1]; exact hbase _ hb
          have hpe := hsep p hp hpav
          rcases hblocked p hp with ⟨d, hd, _⟩
          rw [hpe] at hd
          simp at hd
        | step hmem hdeps ihd =>
          rename_i k' deps'
          intro hmemk
          rcases List.mem_map.1 hmemk with ⟨p, hp, hp1⟩
          have hpg : p ∈ g := hsub p hp
          have hpd : p.2 = deps' := by
            have : (p.1, p.2) ∈ g := by simpa using hpg
            rw [hp1] at this
            exact entry_unique_of_nodup hgnd this hmem
          rcases hblocked p hp with ⟨d, hd, hdav⟩
          rw [hpd] at hd
          have hdreach := hdeps d hd
          have hdout := ihd d hd
          rcases reachable_inv hdreach with hb | ⟨deps'', hdg⟩
          · exact hdav (hbase _ hb)
          · have : d ∈ g.map Prod.fst := List.mem_map.2 ⟨(d, deps''), hdg, rfl⟩
            exact hdav (hrem (d, deps'') hdg hdout)
      rw [hL, heq]
      constructor
      · intro hjL
        refine ⟨hjL, ?_⟩
        intro hr
        exact hreach_out j hr hjL
      · intro h
        exact h.1
    · rw [if_neg hstall] at hw
      by_cases hemp : left'.isEmpty
      · rw [if_pos hemp] at hw
        exact Except.noConfusion hw
      · rw [if_neg hemp] at hw
        have hlt : left'.length < left.length :=
          Nat.lt_of_le_of_ne (List.Sublist.length_le (List.filter_sublist _))
            hstall
        have hres_reach : ∀ r ∈ resolved, Reachable g base r := by
          intro r hr
          rw [hres] at hr
          rcases List.mem_map.1 hr with ⟨p, hp, hp1⟩
          rw [List.mem_filter] at hp
          have hall := List.all_eq_true.1 hp.2
          have : Reachable g base p.1 := by
            refine Reachable.step (show (p.1, p.2) ∈ g by
              simpa using hsub p hp.1) ?_
            intro d hd
            exact hav d (by simpa using hall d hd)
          rw [← hp1]
          exact this
        refine ih (avail ++ resolved) left' (by omega) ?_ ?_ ?_ ?_ ?_ L hw j
            |>.trans ?_
        · intro p hp
          exact hsub p (List.mem_of_mem_filter hp)
        · intro k hk
          exact List.mem_append.2 (Or.inl (hbase k hk))
        · intro k hk
          rcases List.mem_append.1 hk with hk | hk
          · exact hav k hk
          · exact hres_reach k hk
        · intro p hpg hpn
          by_cases hpl : p.1 ∈ left.map Prod.fst
          · rcases List.mem_map.1 hpl with ⟨q, hq, hq1⟩
            by_cases hqres : q.1 ∈ resolved
            · rw [← hq1]
              exact List.mem_append.2 (Or.inr hqres)
            · exfalso
              apply hpn
              refine List.mem_map.2 ⟨q, ?_, hq1⟩
              rw [hleft', List.mem_filter]
              exact ⟨hq, by simpa using hqres⟩
          · exact List.mem_append.2 (Or.inl (hrem p hpg hpl))
        · intro p hp hpav
          have hpleft : p ∈ left := List.mem_of_mem_filter hp
          rcases List.mem_append.1 hpav with hpav | hpav
          · exact hsep p hpleft hpav
          · exfalso
            rw [hleft', List.mem_filter] at hp
            simp [hpav] at hp
        · constructor
          · intro h
            refine ⟨?_, h.2⟩
            rcases List.mem_map.1 h.1 with ⟨q, hq, hq1⟩
            exact List.mem_map.2 ⟨q, List.mem_of_mem_filter hq, hq1⟩
          · intro h
            refine ⟨?_, h.2⟩
            rcases List.mem_map.1 h.1 with ⟨q, hq, hq1⟩
            refine List.mem_map.2 ⟨q, ?_, hq1⟩
            rw [hleft', List.mem_filter]
            refine ⟨hq, ?_⟩
            have : ¬ q.1 ∈ resolved := by
              intro hqres
              exact h.2 (hq1 ▸ hres_reach q.1 hqres)
            simpa using this

theorem verifyRecursiveDeps_cycle_char (b : Binder) (additional : List Nat)
    (hsep : ∀ p ∈ b.pendingDeps, p.1 ∈ b.baseAvail additional → p.2 = []) :
    ∀ L, b.verifyRecursiveDeps additional =
        Except.error (DIError.cycle cycleMsg L) →
      ∀ j, j ∈ L ↔ j ∈ b.pendingDeps.map Prod.fst ∧
        ¬ Reachable b.pendingDeps (b.baseAvail additional) j := by
  intro L hw j
  have hgnd : (b.pendingDeps.map Prod.fst).Nodup :=
    sortedKeys_nodup (sortedKeys_collectMap _)
  rw [Binder.verifyRecursiveDeps, Binder.traverseCore, foldlM_ok_of_ok] at hw
  exact waveLoop_dry_cycle_char b.pendingDeps (b.baseAvail additional) hgnd
    (b.pendingDeps.length + 1) (b.baseAvail additional) b.pendingDeps
    (Nat.lt_succ_self _) (fun p hp => hp) (fun k hk => hk)
    (fun k hk => Reachable.base hk)
    (fun p hpg hpn => absurd (List.mem_map.2 ⟨p, hpg, rfl⟩) hpn)
    hsep L hw j

/-- Example with a true cycle: A (10) → B (11) → C (12) → A, next to an
unrelated pending component D (13) that resolves from the instance of 1. -/
def cycleExample : Binder :=
  ((((Binder.empty.injectFnRaw 10 "A" (fun _ => Except.ok Value.unit)
          [(11, "B")] none false).injectFnRaw 11 "B"
          (fun _ => Except.ok Value.unit) [(12, "C")] none
          false).injectFnRaw 12 "C" (fun _ => Except.ok Value.unit)
        [(10, "A")] none false).injectFnRaw 13 "D"
      (fun _ => Except.ok Value.unit) [(1, "u32")] none
      false).instanceValue 1 "u32" (Value.nat 1)

/-- C3: when the wave process stalls, the dependency-cycle error names
exactly the pending (non-lazy) registrations that are semantically
unreachable from the known keys — every registration still unresolved at the
stall and nothing else. Concretely, the A→B→C→A binder fails `build` with a
cycle error naming exactly A, B and C while the unrelated pending component
D (13), which resolves in the first wave, is excluded. -/
theorem c3_dependency_cycle :
    (∀ (b : Binder) (additional : List Nat) (L : List Nat),
      (∀ p ∈ b.pendingDeps, p.1 ∈ b.baseAvail additional → p.2 = []) →
        b.verifyRecursiveDeps additional =
            Except.error (DIError.cycle cycleMsg L) →
          ∀ j, j ∈ L ↔ j ∈ b.pendingDeps.map Prod.fst ∧
            ¬ Reachable b.pendingDeps (b.baseAvail additional) j) ∧
    cycleExample.build = Except.error (DIError.cycle cycleMsg [10, 11, 12]) ∧
    ¬ (13 : Nat) ∈ [10, 11, 12] := by
  refine ⟨?_, by rfl, by decide⟩
  intro b additional L hsepa hw
  exact verifyRecursiveDeps_cycle_char b additional hsepa L hw

/-- Witness for C3: the characterisation applied to the concrete cycle
binder at key 10. -/
theorem c3_witness :
    (10 : Nat) ∈ [10, 11, 12] ↔
      10 ∈ cycleExample.pendingDeps.map Prod.fst ∧
        ¬ Reachable cycleExample.pendingDeps (cycleExample.baseAvail [1]) 10 :=
  c3_dependency_cycle.1 cycleExample [1] [10, 11, 12] (by decide) (by rfl) 10

/-! ## Lazy-first resolution order -/

/-- The traversal instrumented to log the order in which components are
resolved (the order in which `on_resolve`, and hence builder invocation and
insertion, happens during `build`). -/
def Binder.resolutionOrder (b : Binder) (additional : List Nat) :
    Except DIError (List Nat) :=
  b.traverseCore additional (fun k st => Except.ok (st ++ [k])) cycleMsg []

theorem foldlM_append_log (l : List Nat) :
    ∀ s : List Nat,
      l.foldlM (fun st k => Except.ok (ε := DIError) (st ++ [k])) s =
        Except.ok (s ++ l) := by
  induction l with
  | nil => intro s; simp [List.foldlM]; rfl
  | cons k rest ih =>
    intro s
    rw [List.foldlM_cons]
    show rest.foldlM _ (s ++ [k]) = _
    rw [ih (s ++ [k])]
    simp

theorem waveLoop_log (errMsg : String) :
    ∀ (fuel : Nat) (avail : List Nat) (left : List (Nat × List Nat))
      (s log' : List Nat),
      waveLoop (fun k st => Except.ok (st ++ [k])) errMsg fuel avail left s =
          Except.ok log' →
        ∃ added, log' = s ++ added ∧ ∀ k ∈ added, k ∈ left.map Prod.fst := by
  intro fuel
  induction fuel with
  | zero =>
    intro avail left s log' h
    exact Except.noConfusion h
  | succ fuel ih =>
    intro avail left s log' h
    rw [waveLoop] at h
    rw [foldlM_append_log] at h
    simp only [] at h
    set resolved :=
      (left.filter (fun p => p.2.all (fun d => d ∈ avail))).map Prod.fst with hres
    set left' := left.filter (fun p => ¬ p.1 ∈ resolved) with hleft'
    have hressub : ∀ k ∈ resolved, k ∈ left.map Prod.fst := by
      intro k hk
      rw [hres] at hk
      rcases List.mem_map.1 hk with ⟨p, hp, hp1⟩
      exact List.mem_map.2 ⟨p, List.mem_of_mem_filter hp, hp1⟩
    by_cases hstall : left'.length = left.length
    · rw [if_pos hstall] at h
      exact Except.noConfusion h
    · rw [if_neg hstall] at h
      by_cases hemp : left'.isEmpty
      · rw [if_pos hemp] at h
        have := Except.ok.inj h
        exact ⟨resolved, this.symm, hressub⟩
      · rw [if_neg hemp] at h
        rcases ih _ _ _ _ h with ⟨added', hlog, hadd⟩
        refine ⟨resolved ++ added', by rw [hlog, List.append_assoc], ?_⟩
        intro k hk
        rcases List.mem_append.1 hk with hk | hk
        · exact hressub k hk
        · have := hadd k hk
          rcases List.mem_map.1 this with ⟨p, hp, hp1⟩
          exact List.mem_map.2 ⟨p, List.mem_of_mem_filter hp, hp1⟩

theorem pendingDeps_keys_not_lazy (b : Binder) :
    ∀ k ∈ b.pendingDeps.map Prod.fst, ¬ k ∈ b.resolvedLazySet := by
  intro k hk
  rw [Binder.pendingDeps, mem_keys_collectMap] at hk
  rcases List.mem_map.1 hk with ⟨p, hp, hp1⟩
  rw [List.mem_filter] at hp
  rw [← hp1]
  simpa using hp.2

/-- Builder of the example component A (x: u32, c: Lazy<C>). -/
def buildA : RegMap → Except DIError Value := fun reg => do
  let x ← Injector.get reg 1 "u32"
  let c ← Injector.get reg 6 "Lazy<C>"
  Except.ok (Value.pair x c)

/-- Builder of the example component B (a: A, x: u32). -/
def buildB : RegMap → Except DIError Value := fun reg => do
  let a ← Injector.get reg 3 "A"
  let x ← Injector.get reg 1 "u32"
  Except.ok (Value.pair a x)

/-- Builder of the example component C (b: B, a: A, x: u64). -/
def buildC : RegMap → Except DIError Value := fun reg => do
  let b ← Injector.get reg 4 "B"
  let a ← Injector.get reg 3 "A"
  let x ← Injector.get reg 2 "u64"
  Except.ok (Value.pair b (Value.pair a x))

/-- The lazy-broken cycle of spec section 8: A (3) holds a lazy reference to
C via `Lazy<C>` (6, lazy), B (4) holds A, C (5) holds B, A and the `u64`
instance 2; A also holds the `u32` instance 1. -/
def lazyCycleExample : Binder :=
  (((((Binder.empty.injectFnRaw 5 "C" buildC [(4, "B"), (3, "A"), (2, "u64")]
            none false).injectFnRaw 6 "Lazy<C>"
            (fun _ => Except.ok (Value.lazyRef 5)) [(5, "C")] none
            true).injectFnRaw 4 "B" buildB [(3, "A"), (1, "u32")] none
          false).injectFnRaw 3 "A" buildA [(1, "u32"), (6, "Lazy<C>")] none
        false).instanceValue 1 "u32" (Value.nat 1)).instanceValue 2 "u64"
    (Value.nat 2)

/-- The value built for A in the example. -/
def aVal : Value := Value.pair (Value.nat 1) (Value.lazyRef 5)

/-- The value built for B in the example. -/
def bVal : Value := Value.pair aVal (Value.nat 1)

/-- The value built for C in the example. -/
def cVal : Value := Value.pair bVal (Value.pair aVal (Value.nat 2))

/-- The registry the example build produces. -/
def lazyCycleReg : RegMap :=
  [(1, Value.nat 1), (2, Value.nat 2), (3, aVal), (4, bVal), (5, cVal),
    (6, Value.lazyRef 5)]

/-- C2: in the traversal every lazy-marked component is resolved (its
`onResolve` — during `build`, its builder plus insertion — runs) before any
non-lazy component, and the lazy keys are available from the start of the
wave loop; consequently the lazy-broken cycle of spec section 8 builds
successfully, `get C` yields the eagerly-built C whose `b.a.x` field is 1,
and forcing the lazy reference stored inside A yields exactly the concrete C
whose `x` field is 2. -/
theorem c2_lazy_first_resolution :
    (∀ (b : Binder) (additional : List Nat) (log : List Nat),
      b.resolutionOrder additional = Except.ok log →
        ∃ rest, log = b.resolvedLazySet ++ rest ∧
          ∀ k ∈ rest, ¬ k ∈ b.resolvedLazySet) ∧
    (∀ (b : Binder) (additional : List Nat) (k : Nat),
      k ∈ b.resolvedLazySet → k ∈ b.baseAvail additional) ∧
    (lazyCycleExample.build = Except.ok lazyCycleReg ∧
      Injector.get lazyCycleReg 5 "C" = Except.ok cVal ∧
      cVal = Value.pair bVal (Value.pair aVal (Value.nat 2)) ∧
      bVal = Value.pair aVal (Value.nat 1) ∧
      aVal = Value.pair (Value.nat 1) (Value.lazyRef 5) ∧
      forceValue lazyCycleReg (Value.lazyRef 5) = some cVal) := by
  refine ⟨?_, ?_, by rfl, by rfl, rfl, rfl, rfl, by rfl⟩
  · intro b additional log h
    rw [Binder.resolutionOrder, Binder.traverseCore, foldlM_append_log] at h
    simp only [] at h
    rcases waveLoop_log cycleMsg _ _ _ _ _ h with ⟨added, hlog, hadd⟩
    refine ⟨added, by simpa using hlog, ?_⟩
    intro k hk
    exact pendingDeps_keys_not_lazy b k (hadd k hk)
  · intro b additional k hk
    rw [Binder.baseAvail]
    exact List.mem_append.2 (Or.inr hk)

/-- Witness for C2: the lazy-first decomposition applied to the concrete
example's resolution order. -/
theorem c2_witness :
    ∃ rest, [6, 1, 2, 3, 4, 5] = lazyCycleExample.resolvedLazySet ++ rest ∧
      ∀ k ∈ rest, ¬ k ∈ lazyCycleExample.resolvedLazySet :=
  c2_lazy_first_resolution.1 lazyCycleExample
    (lazyCycleExample.staticValues.map Prod.fst) [6, 1, 2, 3, 4, 5] (by rfl)

/-! ## Registration sequences

A binder is built by a sequence of registration calls; `applyOps` replays
such a sequence on the empty binder. This makes "the order in which the
registrations were made" a first-class object. -/

/-- One registration call: `instance(value)` or `inject_fn_raw(...)`. -/
inductive Op where
  | inst : Nat → String → Value → Op
  | inj : Nat → String → List (Nat × String) →
      (RegMap → Except DIError Value) → Option String → Bool → Op

/-- The type key an operation registers. -/
def Op.key : Op → Nat
  | Op.inst k _ _ => k
  | Op.inj k _ _ _ _ _ => k

/-- The requirements-graph entry an operation pushes. -/
def Op.graphEntry : Op → Nat × List Nat
  | Op.inst k _ _ => (k, [])
  | Op.inj k _ deps _ _ _ => (k, deps.map Prod.fst)

/-- The builder an operation pushes, if any. -/
def Op.builderEntry : Op → Option (Nat × (RegMap → Except DIError Value))
  | Op.inst _ _ _ => none
  | Op.inj k _ _ f _ _ => some (k, f)

/-- The static value an operation supplies, if any. -/
def Op.staticEntry : Op → Option (Nat × Value)
  | Op.inst k _ v => some (k, v)
  | Op.inj _ _ _ _ _ _ => none

/-- The key an operation marks lazy, if any. -/
def Op.lazyKey : Op → Option Nat
  | Op.inst _ _ _ => none
  | Op.inj k _ _ _ _ lz => if lz then some k else none

/-- Replay one registration call. -/
def applyOp (b : Binder) : Op → Binder
  | Op.inst k n v => b.instanceValue k n v
  | Op.inj k n deps f dbg lz => b.injectFnRaw k n f deps dbg lz

/-- Replay a registration sequence on the empty binder. -/
def applyOps (ops : List Op) : Binder := ops.foldl applyOp Binder.empty

theorem applyOps_graph_from (ops : List Op) :
    ∀ b : Binder, (ops.foldl applyOp b).requirementsGraph =
      b.requirementsGraph ++ ops.map Op.graphEntry := by
  induction ops with
  | nil => intro b; simp
  | cons op rest ih =>
    intro b
    rw [List.foldl_cons, ih]
    cases op with
    | inst k n v => simp [applyOp, Binder.instanceValue, Op.graphEntry]
    | inj k n deps f dbg lz => simp [applyOp, Binder.injectFnRaw, Op.graphEntry]

theorem applyOps_graph (ops : List Op) :
    (applyOps ops).requirementsGraph = ops.map Op.graphEntry := by
  rw [applyOps, applyOps_graph_from]
  rfl

theorem applyOps_builders_from (ops : List Op) :
    ∀ b : Binder, (ops.foldl applyOp b).builders =
      b.builders ++ ops.filterMap Op.builderEntry := by
  induction ops with
  | nil => intro b; simp
  | cons op rest ih =>
    intro b
    rw [List.foldl_cons, ih]
    cases op with
    | inst k n v => simp [applyOp, Binder.instanceValue, Op.builderEntry]
    | inj k n deps f dbg lz => simp [applyOp, Binder.injectFnRaw, Op.builderEntry]

theorem applyOps_builders (ops : List Op) :
    (applyOps ops).builders = ops.filterMap Op.builderEntry := by
  rw [applyOps, applyOps_builders_from]
  rfl

theorem applyOps_static_from (ops : List Op) :
    ∀ b : Binder, (ops.foldl applyOp b).staticValues =
      (ops.filterMap Op.staticEntry).foldl
        (fun m p => mapInsert p.1 p.2 m) b.staticValues := by
  induction ops with
  | nil => intro b; simp
  | cons op rest ih =>
    intro b
    rw [List.foldl_cons, ih]
    cases op with
    | inst k n v => simp [applyOp, Binder.instanceValue, Op.staticEntry]
    | inj k n deps f dbg lz => simp [applyOp, Binder.injectFnRaw, Op.staticEntry]

theorem applyOps_static (ops : List Op) :
    (applyOps ops).staticValues = collectMap (ops.filterMap Op.staticEntry) := by
  rw [applyOps, applyOps_static_from]
  rfl

theorem applyOps_lazy_from (ops : List Op) :
    ∀ b : Binder, (ops.foldl applyOp b).lazyTypes =
      (ops.filterMap Op.lazyKey).foldl (fun s k => setInsert k s) b.lazyTypes := by
  induction ops with
  | nil => intro b; simp
  | cons op rest ih =>
    intro b
    rw [List.foldl_cons, ih]
    cases op with
    | inst k n v => simp [applyOp, Binder.instanceValue, Op.lazyKey]
    | inj k n deps f dbg lz =>
      by_cases hlz : lz
      · simp [applyOp, Binder.injectFnRaw, Op.lazyKey, hlz]
      · simp [applyOp, Binder.injectFnRaw, Op.lazyKey, hlz]

theorem applyOps_lazy (ops : List Op) :
    (applyOps ops).lazyTypes = sortedDedup (ops.filterMap Op.lazyKey) := by
  rw [applyOps, applyOps_lazy_from]
  rfl

theorem graphEntry_key (op : Op) : (Op.graphEntry op).1 = Op.key op := by
  cases op <;> rfl

theorem applyOps_graph_keys (ops : List Op) :
    (applyOps ops).requirementsGraph.map Prod.fst = ops.map Op.key := by
  rw [applyOps_graph, List.map_map]
  exact List.map_congr_left (fun op _ => graphEntry_key op)

theorem staticEntry_keys_sublist (ops : List Op) :
    ((ops.filterMap Op.staticEntry).map Prod.fst).Sublist (ops.map Op.key) := by
  induction ops with
  | nil => simp
  | cons op rest ih =>
    cases op with
    | inst k n v =>
      simpa [Op.staticEntry, Op.key] using ih.cons₂ k
    | inj k n deps f dbg lz =>
      simpa [Op.staticEntry, Op.key] using ih.cons k

theorem builderEntry_keys_sublist (ops : List Op) :
    ((ops.filterMap Op.builderEntry).map Prod.fst).Sublist (ops.map Op.key) := by
  induction ops with
  | nil => simp
  | cons op rest ih =>
    cases op with
    | inst k n v =>
      simpa [Op.builderEntry, Op.key] using ih.cons k
    | inj k n deps f dbg lz =>
      simpa [Op.builderEntry, Op.key] using ih.cons₂ k

theorem mapFind_isSome_mapInsert {α : Type} (j k : Nat) (v : α)
    (m : List (Nat × α)) (h : (mapFind j m).isSome) :
    (mapFind j (mapInsert k v m)).isSome := by
  by_cases hjk : j = k
  · subst hjk
    rw [mapFind_mapInsert_self]
    rfl
  · rw [mapFind_mapInsert_ne _ _ hjk]
    exact h

theorem mapFind_isSome_foldl {α : Type} (w : List (Nat × α)) :
    ∀ (m : List (Nat × α)) (j : Nat), (mapFind j m).isSome →
      (mapFind j (w.foldl (fun m p => mapInsert p.1 p.2 m) m)).isSome := by
  induction w with
  | nil => intro m j h; exact h
  | cons p rest ih =>
    intro m j h
    rw [List.foldl_cons]
    exact ih _ j (mapFind_isSome_mapInsert j p.1 p.2 m h)

theorem mapFind_isSome_foldl_of_mem {α : Type} (w : List (Nat × α)) :
    ∀ (m : List (Nat × α)) (j : Nat), j ∈ w.map Prod.fst →
      (mapFind j (w.foldl (fun m p => mapInsert p.1 p.2 m) m)).isSome := by
  induction w with
  | nil => intro m j h; simp at h
  | cons p rest ih =>
    intro m j h
    rw [List.foldl_cons]
    rw [List.map_cons, List.mem_cons] at h
    rcases h with he | hm
    · apply mapFind_isSome_foldl
      rw [he, mapFind_mapInsert_self]
      rfl
    · exact ih _ j hm

theorem typeNames_isSome_applyOp (b : Binder) (op : Op) (j : Nat)
    (h : (mapFind j b.typeNames).isSome) :
    (mapFind j (applyOp b op).typeNames).isSome := by
  cases op with
  | inst k n v => exact mapFind_isSome_mapInsert j k n b.typeNames h
  | inj k n deps f dbg lz =>
    exact mapFind_isSome_mapInsert j k n _ (mapFind_isSome_foldl deps _ j h)

theorem namesRecorded_applyOp (b : Binder) (op : Op)
    (h : NamesRecorded b) : NamesRecorded (applyOp b op) := by
  intro p hp
  cases op with
  | inst k n v =>
    have hp' : p ∈ b.requirementsGraph ∨ p = (k, []) := by
      simpa [applyOp, Binder.instanceValue] using hp
    rcases hp' with hold | hnew
    · obtain ⟨h1, h2⟩ := h p hold
      exact ⟨mapFind_isSome_mapInsert _ _ _ _ h1,
        fun x hx => mapFind_isSome_mapInsert _ _ _ _ (h2 x hx)⟩
    · subst hnew
      refine ⟨?_, by intro x hx; simp at hx⟩
      show (mapFind k (mapInsert k n b.typeNames)).isSome
      rw [mapFind_mapInsert_self]
      rfl
  | inj k n deps f dbg lz =>
    have hp' : p ∈ b.requirementsGraph ∨ p = (k, deps.map Prod.fst) := by
      simpa [applyOp, Binder.injectFnRaw] using hp
    rcases hp' with hold | hnew
    · obtain ⟨h1, h2⟩ := h p hold
      exact ⟨mapFind_isSome_mapInsert _ _ _ _ (mapFind_isSome_foldl deps _ _ h1),
        fun x hx => mapFind_isSome_mapInsert _ _ _ _
          (mapFind_isSome_foldl deps _ _ (h2 x hx))⟩
    · subst hnew
      constructor
      · show (mapFind k (mapInsert k n _)).isSome
        rw [mapFind_mapInsert_self]
        rfl
      · intro x hx
        exact mapFind_isSome_mapInsert _ _ _ _
          (mapFind_isSome_foldl_of_mem deps _ x hx)

theorem namesRecorded_applyOps (ops : List Op) : NamesRecorded (applyOps ops) := by
  rw [applyOps]
  have hgen : ∀ b : Binder, NamesRecorded b →
      NamesRecorded (ops.foldl applyOp b) := by
    induction ops with
    | nil => intro b h; exact h
    | cons op rest ih =>
      intro b h
      rw [List.foldl_cons]
      exact ih _ (namesRecorded_applyOp b op h)
  apply hgen
  intro p hp
  simp [Binder.empty] at hp

/-! ## Acyclicity -/

/-- Dependency edge of a requirements graph: `a` has an entry listing `b`. -/
def DepEdge (g : List (Nat × List Nat)) (a b : Nat) : Prop :=
  ∃ deps, (a, deps) ∈ g ∧ b ∈ deps

/-- A graph is acyclic when no dependency chain closes back on its start. -/
def Acyclic (g : List (Nat × List Nat)) : Prop :=
  ∀ (k : Nat) (l : List Nat), List.Chain (DepEdge g) k l →
    ¬ DepEdge g (l.getLastD k) k

theorem chain_rank_lt {g : List (Nat × List Nat)} {rank : Nat → Nat}
    (hr : ∀ p ∈ g, ∀ x ∈ p.2, rank x < rank p.1) :
    ∀ (l : List Nat) (k : Nat), List.Chain (DepEdge g) k l → l ≠ [] →
      rank (l.getLastD k) < rank k := by
  intro l
  induction l with
  | nil => intro k _ hne; exact absurd rfl hne
  | cons b rest ih =>
    intro k hchain _
    rw [List.chain_cons] at hchain
    obtain ⟨⟨deps, hmem, hb⟩, hrest⟩ := hchain
    have hbk : rank b < rank k := hr (k, deps) hmem b hb
    rw [List.getLastD_cons]
    cases rest with
    | nil => exact hbk
    | cons c rest' =>
      exact Nat.lt_trans (ih b hrest (by simp)) hbk

theorem acyclic_of_rank (g : List (Nat × List Nat)) (rank : Nat → Nat)
    (hr : ∀ p ∈ g, ∀ x ∈ p.2, rank x < rank p.1) : Acyclic g := by
  intro k l hchain hedge
  cases l with
  | nil =>
    obtain ⟨deps, hmem, hk⟩ := hedge
    have hlt : rank k < rank k := hr (k, deps) hmem k hk
    omega
  | cons b rest =>
    have h1 := chain_rank_lt hr (b :: rest) k hchain (by simp)
    obtain ⟨deps, hmem, hk⟩ := hedge
    have h2 : rank k < rank ((b :: rest).getLastD k) :=
      hr ((b :: rest).getLastD k, deps) hmem k hk
    omega

theorem acyclic_antitone {g g' : List (Nat × List Nat)}
    (hsub : ∀ p ∈ g', p ∈ g) (h : Acyclic g) : Acyclic g' := by
  intro k l hchain hedge
  have hedge' : ∀ a b : Nat, DepEdge g' a b → DepEdge g a b := by
    intro a b ⟨deps, hmem, hb⟩
    exact ⟨deps, hsub _ hmem, hb⟩
  exact h k l (List.Chain.imp hedge' hchain)
    (hedge' _ _ hedge)

theorem range'_map_chain {g : List (Nat × List Nat)} {seq : Nat → Nat}
    (hedge : ∀ t, DepEdge g (seq t) (seq (t + 1))) :
    ∀ (m i : Nat), List.Chain (DepEdge g) (seq i)
      ((List.range' (i + 1) m).map seq) := by
  intro m
  induction m with
  | zero => intro i; exact List.Chain.nil
  | succ m ih =>
    intro i
    rw [List.range'_succ, List.map_cons]
    exact List.Chain.cons (hedge i) (ih (i + 1))

theorem range'_map_getLastD {seq : Nat → Nat} :
    ∀ (m s : Nat) (d : Nat),
      ((List.range' s (m + 1)).map seq).getLastD d = seq (s + m) := by
  intro m
  induction m with
  | zero => intro s d; rfl
  | succ m ih =>
    intro s d
    rw [List.range'_succ, List.map_cons, List.getLastD_cons, ih (s + 1) (seq s)]
    congr 1
    omega

theorem iterate_repeat_not_acyclic (g : List (Nat × List Nat))
    (keys : List Nat) (f : Nat → Nat)
    (hstep : ∀ k ∈ keys, DepEdge g k (f k) ∧ f k ∈ keys)
    (hne : keys ≠ []) : ¬ Acyclic g := by
  intro hacyc
  obtain ⟨k0, hk0⟩ : ∃ k0, k0 ∈ keys := by
    cases keys with
    | nil => exact absurd rfl hne
    | cons a l => exact ⟨a, List.mem_cons_self _ _⟩
  have hseq : ∀ i, f^[i] k0 ∈ keys := by
    intro i
    induction i with
    | zero => exact hk0
    | succ i ih =>
      rw [Function.iterate_succ_apply']
      exact (hstep _ ih).2
  have hedge : ∀ t, DepEdge g (f^[t] k0) (f^[t + 1] k0) := by
    intro t
    rw [Function.iterate_succ_apply']
    exact (hstep _ (hseq t)).1
  have hcard : keys.toFinset.card < (Finset.range (keys.length + 1)).card := by
    rw [Finset.card_range]
    exact Nat.lt_succ_of_le (List.toFinset_card_le keys)
  have hmaps : ∀ i ∈ Finset.range (keys.length + 1),
      f^[i] k0 ∈ keys.toFinset := by
    intro i _
    exact List.mem_toFinset.2 (hseq i)
  obtain ⟨i, _, j, _, hij, heq⟩ :=
    Finset.exists_ne_map_eq_of_card_lt_of_maps_to hcard hmaps
  -- a repeat in the iterate sequence closes a dependency chain
  have key : ∀ a b : Nat, a < b → f^[a] k0 = f^[b] k0 → False := by
    intro a b hab hrep
    rcases Nat.lt_or_ge (a + 1) b with hb | hb
    · have hm : b - 1 - a = (b - a - 2) + 1 := by omega
      have hchain := range'_map_chain hedge (b - 1 - a) a
      have hlast2 :
          ((List.range' (a + 1) (b - 1 - a)).map (fun t => f^[t] k0)).getLastD
            (f^[a] k0) = f^[b - 1] k0 := by
        rw [hm]
        rw [range'_map_getLastD]
        congr 1
        omega
      have hnoedge := hacyc (f^[a] k0) _ hchain
      rw [hlast2] at hnoedge
      apply hnoedge
      have := hedge (b - 1)
      have harith : b - 1 + 1 = b := by omega
      rw [harith] at this
      rw [← hrep] at this
      exact this
    · have hb1 : b = a + 1 := by omega
      subst hb1
      have hchain : List.Chain (DepEdge g) (f^[a] k0) [] := List.Chain.nil
      have hnoedge := hacyc (f^[a] k0) [] hchain
      apply hnoedge
      show DepEdge g (f^[a] k0) (f^[a] k0)
      have := hedge a
      rw [← hrep] at this
      exact this
  rcases Nat.lt_trichotomy i j with h | h | h
  · exact key i j h heq
  · exact hij h
  · exact key j i h heq.symm

theorem stall_has_cycle (g : List (Nat × List Nat)) (avail : List Nat)
    (left : List (Nat × List Nat)) (hne : left ≠ [])
    (hsub : ∀ p ∈ left, p ∈ g)
    (hnd : (left.map Prod.fst).Nodup)
    (hcov : ∀ p ∈ left, ∀ x ∈ p.2, x ∈ avail ∨ x ∈ left.map Prod.fst)
    (hblocked : ∀ p ∈ left, ∃ d ∈ p.2, ¬ d ∈ avail) : ¬ Acyclic g := by
  apply iterate_repeat_not_acyclic g (left.map Prod.fst)
    (fun k => (((mapFind k left).getD []).find?
      (fun d => ¬ d ∈ avail)).getD 0)
  · intro k hk
    have hsome : (mapFind k left).isSome := (mapFind_isSome_iff k left).2 hk
    rcases Option.isSome_iff_exists.1 hsome with ⟨deps, hdeps⟩
    have hmem : (k, deps) ∈ left := mapFind_mem hdeps
    rcases hblocked (k, deps) hmem with ⟨d, hd, hdav⟩
    have hfind : (deps.find? (fun d => ¬ d ∈ avail)).isSome := by
      rw [List.find?_isSome]
      exact ⟨d, hd, by simpa using hdav⟩
    rcases Option.isSome_iff_exists.1 hfind with ⟨d0, hd0⟩
    have hd0mem : d0 ∈ deps := List.mem_of_find?_eq_some hd0
    have hd0nav : ¬ d0 ∈ avail := by simpa using List.find?_some hd0
    have hval : (((mapFind k left).getD []).find?
        (fun d => ¬ d ∈ avail)).getD 0 = d0 := by
      rw [hdeps]
      show (deps.find? _).getD 0 = d0
      rw [hd0]
      rfl
    rw [hval]
    constructor
    · exact ⟨deps, hsub _ hmem, hd0mem⟩
    · rcases hcov (k, deps) hmem d0 hd0mem with hin | hin
      · exact absurd hin hd0nav
      · exact hin
  · intro h
    rw [List.map_eq_nil_iff] at h
    exact hne h

theorem foldlM_ok_exists {σ : Type} (onResolve : Nat → σ → Except DIError σ)
    (htot : ∀ k s, ∃ s', onResolve k s = Except.ok s') :
    ∀ (l : List Nat) (s : σ),
      ∃ s', l.foldlM (fun st k => onResolve k st) s = Except.ok s' := by
  intro l
  induction l with
  | nil => intro s; exact ⟨s, rfl⟩
  | cons k rest ih =>
    intro s
    rcases htot k s with ⟨s1, h1⟩
    rw [List.foldlM_cons, h1]
    exact ih s1

theorem waveLoop_ok {σ : Type} (g : List (Nat × List Nat))
    (onResolve : Nat → σ → Except DIError σ)
    (htot : ∀ k s, ∃ s', onResolve k s = Except.ok s')
    (hacyc : Acyclic g) (errMsg : String) :
    ∀ (fuel : Nat) (avail : List Nat) (left : List (Nat × List Nat)) (s : σ),
      left.length < fuel → left ≠ [] →
      (∀ p ∈ left, p ∈ g) →
      ((left.map Prod.fst).Nodup) →
      (∀ p ∈ left, ∀ x ∈ p.2, x ∈ avail ∨ x ∈ left.map Prod.fst) →
      ∃ s', waveLoop onResolve errMsg fuel avail left s = Except.ok s' := by
  intro fuel
  induction fuel with
  | zero =>
    intro avail left s hlen
    omega
  | succ fuel ih =>
    intro avail left s hlen hne hsub hnd hcov
    rw [waveLoop]
    rcases foldlM_ok_exists onResolve htot
        ((left.filter (fun p => p.2.all (fun d => d ∈ avail))).map Prod.fst) s
      with ⟨s1, hs1⟩
    rw [hs1]
    simp only []
    set resolved :=
      (left.filter (fun p => p.2.all (fun d => d ∈ avail))).map Prod.fst with hres
    set left' := left.filter (fun p => ¬ p.1 ∈ resolved) with hleft'
    by_cases hstall : left'.length = left.length
    · exfalso
      have heq : left' = left :=
        List.Sublist.eq_of_length (List.filter_sublist _) hstall
      have hresnil : resolved = [] := by
        rcases hresolved : resolved with _ | ⟨r, rs⟩
        · rfl
        · exfalso
          have hr : r ∈ resolved := by rw [hresolved]; exact List.mem_cons_self _ _
          rw [hres] at hr
          rcases List.mem_map.1 hr with ⟨p, hp, hp1⟩
          have hpl : p ∈ left := List.mem_of_mem_filter hp
          have hpl' : p ∈ left' := by rw [heq]; exact hpl
          rw [hleft', List.mem_filter] at hpl'
          have : p.1 ∈ resolved := by
            rw [hres]
            exact List.mem_map.2 ⟨p, hp, rfl⟩
          simp [this] at hpl'
      have hblocked : ∀ p ∈ left, ∃ d ∈ p.2, ¬ d ∈ avail := by
        intro p hp
        by_contra hnb
        push_neg at hnb
        have hall : p.2.all (fun d => d ∈ avail) = true := by
          rw [List.all_eq_true]
          intro d hd
          simpa using hnb d hd
        have : p.1 ∈ resolved := by
          rw [hres]
          exact List.mem_map.2 ⟨p, List.mem_filter.2 ⟨hp, hall⟩, rfl⟩
        rw [hresnil] at this
        simp at this
      exact stall_has_cycle g avail left hne hsub hnd hcov hblocked hacyc
    · rw [if_neg hstall]
      by_cases hemp : left'.isEmpty
      · rw [if_pos hemp]
        exact ⟨s1, rfl⟩
      · rw [if_neg hemp]
        have hlt : left'.length < left.length :=
          Nat.lt_of_le_of_ne (List.Sublist.length_le (List.filter_sublist _))
            hstall
        apply ih
        · omega
        · intro hnil
          rw [hnil] at hemp
          exact hemp rfl
        · intro p hp
          exact hsub p (List.mem_of_mem_filter hp)
        · exact List.Nodup.sublist (List.Sublist.map Prod.fst
            (List.filter_sublist _)) hnd
        · intro p hp x hx
          have hpl : p ∈ left := List.mem_of_mem_filter hp
          rcases hcov p hpl x hx with hin | hin
          · exact Or.inl (List.mem_append.2 (Or.inl hin))
          · by_cases hxr : x ∈ resolved
            · exact Or.inl (List.mem_append.2 (Or.inr hxr))
            · right
              rcases List.mem_map.1 hin with ⟨q, hq, hq1⟩
              refine List.mem_map.2 ⟨q, ?_, hq1⟩
              rw [hleft', List.mem_filter]
              refine ⟨hq, ?_⟩
              rw [← hq1] at hxr
              simpa using hxr

theorem pendingDeps_sorted (b : Binder) : SortedKeys b.pendingDeps := by
  rw [Binder.pendingDeps]
  exact sortedKeys_collectMap _

theorem pendingDeps_nodup (b : Binder) : (b.pendingDeps.map Prod.fst).Nodup :=
  sortedKeys_nodup (pendingDeps_sorted b)

theorem pendingDeps_entry_mem {b : Binder} {p : Nat × List Nat}
    (h : p ∈ b.pendingDeps) : p ∈ b.requirementsGraph := by
  rw [Binder.pendingDeps] at h
  exact List.mem_of_mem_filter (collectMap_entry_mem h)

theorem traverseCore_ok {σ : Type} (b : Binder) (additional : List Nat)
    (onResolve : Nat → σ → Except DIError σ)
    (htot : ∀ k s, ∃ s', onResolve k s = Except.ok s')
    (hacyc : Acyclic b.pendingDeps) (hne : b.pendingDeps ≠ [])
    (hcov : ∀ p ∈ b.pendingDeps, ∀ x ∈ p.2,
      x ∈ b.baseAvail additional ∨ x ∈ b.pendingDeps.map Prod.fst)
    (errMsg : String) (s0 : σ) :
    ∃ s', b.traverseCore additional onResolve errMsg s0 = Except.ok s' := by
  rw [Binder.traverseCore]
  rcases foldlM_ok_exists onResolve htot b.resolvedLazySet s0 with ⟨s1, hs1⟩
  rw [hs1]
  exact waveLoop_ok b.pendingDeps onResolve htot hacyc errMsg
    (b.pendingDeps.length + 1) (sortedDedup additional ++ b.resolvedLazySet)
    b.pendingDeps s1 (Nat.lt_succ_self _) hne (fun p hp => hp)
    (pendingDeps_nodup b) hcov

/-! ## Building a well-formed registration sequence succeeds -/

theorem lazyKey_eq_key {op : Op} {k : Nat} (h : Op.lazyKey op = some k) :
    Op.key op = k := by
  cases op with
  | inst k' n v => exact Option.noConfusion h
  | inj k' n deps f dbg lz =>
    rw [Op.lazyKey] at h
    by_cases hlz : lz
    · rw [if_pos hlz] at h
      exact Option.some.inj h
    · rw [if_neg hlz] at h
      exact Option.noConfusion h

theorem op_inj_of_key {ops : List Op} (hnd : (ops.map Op.key).Nodup)
    {op op' : Op} (h1 : op ∈ ops) (h2 : op' ∈ ops)
    (hk : Op.key op = Op.key op') : op = op' :=
  List.inj_on_of_nodup_map hnd h1 h2 hk

theorem ops_staticKeys_sub (ops : List Op) :
    ∀ j ∈ (applyOps ops).staticValues.map Prod.fst, j ∈ ops.map Op.key := by
  intro j hj
  rw [applyOps_static, mem_keys_collectMap] at hj
  exact (staticEntry_keys_sublist ops).mem hj

theorem ops_static_key_inst {ops : List Op} {j : Nat}
    (hj : j ∈ (applyOps ops).staticValues.map Prod.fst) :
    ∃ n v, Op.inst j n v ∈ ops := by
  rw [applyOps_static, mem_keys_collectMap] at hj
  rcases List.mem_map.1 hj with ⟨p, hp, hp1⟩
  rcases List.mem_filterMap.1 hp with ⟨op, hop, hsome⟩
  cases op with
  | inst k n v =>
    rw [Op.staticEntry] at hsome
    have hpe := Option.some.inj hsome
    refine ⟨n, v, ?_⟩
    have : j = k := by rw [← hp1, ← hpe]
    rw [this]
    exact hop
  | inj k n deps f dbg lz => exact Option.noConfusion hsome

theorem ops_nonEmpty_key_inj {ops : List Op} {j : Nat}
    (hj : j ∈ nonEmptyDepKeys (applyOps ops).requirementsGraph) :
    ∃ op ∈ ops, Op.key op = j ∧ (Op.graphEntry op).2 ≠ [] := by
  rw [nonEmptyDepKeys, applyOps_graph] at hj
  rcases List.mem_map.1 hj with ⟨p, hp, hp1⟩
  rw [List.mem_filter] at hp
  rcases List.mem_map.1 hp.1 with ⟨op, hop, hope⟩
  refine ⟨op, hop, ?_, ?_⟩
  · rw [← hp1, ← hope, graphEntry_key]
  · rw [hope]
    intro hnil
    rw [hnil] at hp
    simp at hp

theorem ops_dup_ok (ops : List Op) (hnd : (ops.map Op.key).Nodup) :
    (applyOps ops).verifyDuplicates
      ((applyOps ops).knownKeys ((applyOps ops).staticValues.map Prod.fst)) =
      Except.ok () := by
  rw [verifyDuplicates_ok_iff]
  intro j ⟨hne, hcond⟩
  rcases ops_nonEmpty_key_inj hne with ⟨op, hop, hopk, hopne⟩
  rcases hcond with hadd | hcount
  · rw [Binder.knownKeys, mem_sortedDedup, List.mem_append] at hadd
    have hstatic : j ∈ (applyOps ops).staticValues.map Prod.fst := by
      rcases hadd with h | h
      · exact h
      · exact h
    rcases ops_static_key_inst hstatic with ⟨n, v, hinst⟩
    have heq := op_inj_of_key hnd hop hinst (by rw [hopk]; rfl)
    rw [heq] at hopne
    exact hopne rfl
  · have hsub : (nonEmptyDepKeys (applyOps ops).requirementsGraph).Sublist
        (ops.map Op.key) := by
      rw [nonEmptyDepKeys, applyOps_graph]
      have h1 : ((ops.map Op.graphEntry).filter
          (fun p => ¬ p.2.isEmpty)).Sublist (ops.map Op.graphEntry) :=
        List.filter_sublist _
      have h2 := h1.map Prod.fst
      rw [List.map_map] at h2
      have h3 : (ops.map (Prod.fst ∘ Op.graphEntry)) = ops.map Op.key :=
        List.map_congr_left (fun op _ => graphEntry_key op)
      rw [h3] at h2
      exact h2
    have hle := hsub.count_le j
    have hone := List.nodup_iff_count_le_one.1 hnd j
    omega

theorem ops_nested_ok (ops : List Op) (hnd : (ops.map Op.key).Nodup)
    (hlz : ∀ op ∈ ops, ∀ k, Op.lazyKey op = some k →
      ∀ d ∈ (Op.graphEntry op).2, ¬ d ∈ ops.filterMap Op.lazyKey) :
    (applyOps ops).verifyNestedLazyDeps = Except.ok () := by
  rw [verifyNestedLazyDeps_ok_iff]
  intro p hp hlazy x hx hxl
  rw [applyOps_graph] at hp
  rcases List.mem_map.1 hp with ⟨op, hop, hope⟩
  rw [applyOps_lazy, mem_sortedDedup] at hlazy hxl
  rcases List.mem_filterMap.1 hlazy with ⟨op', hop', hop's⟩
  have hk : Op.key op' = p.1 := lazyKey_eq_key hop's
  have hkop : Op.key op = p.1 := by rw [← hope, graphEntry_key]
  have heq := op_inj_of_key hnd hop' hop (by rw [hk, hkop])
  rw [heq] at hop's
  have := hlz op hop p.1 hop's x (by rw [hope]; exact hx)
  exact this hxl

theorem ops_missing_ok (ops : List Op)
    (hcov : ∀ op ∈ ops, ∀ d ∈ (Op.graphEntry op).2, d ∈ ops.map Op.key) :
    (applyOps ops).verifyMissingDeps
      ((applyOps ops).knownKeys ((applyOps ops).staticValues.map Prod.fst)) =
      Except.ok () := by
  rw [verifyMissingDeps_ok_iff _ (namesRecorded_applyOps ops)]
  intro p hp x hx
  rw [applyOps_graph] at hp
  rcases List.mem_map.1 hp with ⟨op, hop, hope⟩
  have hxk : x ∈ ops.map Op.key := hcov op hop x (by rw [hope]; exact hx)
  rw [List.mem_append, applyOps_graph_keys]
  exact Or.inr hxk

theorem key_in_pending (b : Binder) (x : Nat)
    (hx : x ∈ b.requirementsGraph.map Prod.fst)
    (hnl : ¬ x ∈ b.resolvedLazySet) : x ∈ b.pendingDeps.map Prod.fst := by
  rw [Binder.pendingDeps, mem_keys_collectMap]
  rcases List.mem_map.1 hx with ⟨q, hq, hq1⟩
  refine List.mem_map.2 ⟨q, ?_, hq1⟩
  rw [List.mem_filter]
  refine ⟨hq, ?_⟩
  rw [hq1]
  simpa using hnl

theorem nonlazy_key_not_lazySet {ops : List Op} (hnd : (ops.map Op.key).Nodup)
    {op0 : Op} (hop0 : op0 ∈ ops) (hlz : Op.lazyKey op0 = none) :
    ¬ Op.key op0 ∈ (applyOps ops).resolvedLazySet := by
  intro hmem
  rw [Binder.resolvedLazySet, mem_sortedDedup, List.mem_filter] at hmem
  have hlazy : Op.key op0 ∈ (applyOps ops).lazyTypes := by simpa using hmem.2
  rw [applyOps_lazy, mem_sortedDedup] at hlazy
  rcases List.mem_filterMap.1 hlazy with ⟨op', hop', hop's⟩
  have hk : Op.key op' = Op.key op0 := lazyKey_eq_key hop's
  have heq := op_inj_of_key hnd hop' hop0 hk
  rw [heq, hlz] at hop's
  exact Option.noConfusion hop's

theorem ops_pending_ne {ops : List Op} (hnd : (ops.map Op.key).Nodup)
    (hnonlazy : ∃ op ∈ ops, Op.lazyKey op = none) :
    (applyOps ops).pendingDeps ≠ [] := by
  rcases hnonlazy with ⟨op0, hop0, hlz0⟩
  rw [Binder.pendingDeps]
  intro hnil
  rw [collectMap_eq_nil_iff, List.filter_eq_nil_iff] at hnil
  have hmem : Op.graphEntry op0 ∈ (applyOps ops).requirementsGraph := by
    rw [applyOps_graph]
    exact List.mem_map.2 ⟨op0, hop0, rfl⟩
  have h2 := hnil _ hmem
  simp only [graphEntry_key, decide_eq_true_eq, not_not] at h2
  exact nonlazy_key_not_lazySet hnd hop0 hlz0 h2

theorem ops_pending_cov (ops : List Op)
    (hcov : ∀ op ∈ ops, ∀ d ∈ (Op.graphEntry op).2, d ∈ ops.map Op.key) :
    ∀ additional : List Nat, ∀ p ∈ (applyOps ops).pendingDeps, ∀ x ∈ p.2,
      x ∈ (applyOps ops).baseAvail additional ∨
        x ∈ (applyOps ops).pendingDeps.map Prod.fst := by
  intro additional p hp x hx
  have hpg : p ∈ (applyOps ops).requirementsGraph := pendingDeps_entry_mem hp
  have hxg : x ∈ (applyOps ops).requirementsGraph.map Prod.fst := by
    rw [applyOps_graph] at hpg
    rcases List.mem_map.1 hpg with ⟨op, hop, hope⟩
    rw [applyOps_graph_keys]
    exact hcov op hop x (by rw [hope]; exact hx)
  by_cases hxl : x ∈ (applyOps ops).resolvedLazySet
  · exact Or.inl (List.mem_append.2 (Or.inr hxl))
  · exact Or.inr (key_in_pending _ x hxg hxl)

theorem ops_acyclic_pending {ops : List Op}
    (hacyc : Acyclic (ops.map Op.graphEntry)) :
    Acyclic (applyOps ops).pendingDeps := by
  apply acyclic_antitone _ hacyc
  intro p hp
  have := pendingDeps_entry_mem hp
  rw [applyOps_graph] at this
  exact this

theorem ops_recursive_ok (ops : List Op) (hnd : (ops.map Op.key).Nodup)
    (hcov : ∀ op ∈ ops, ∀ d ∈ (Op.graphEntry op).2, d ∈ ops.map Op.key)
    (hacyc : Acyclic (ops.map Op.graphEntry))
    (hnonlazy : ∃ op ∈ ops, Op.lazyKey op = none) :
    ∀ additional : List Nat,
      (applyOps ops).verifyRecursiveDeps additional = Except.ok () := by
  intro additional
  rw [Binder.verifyRecursiveDeps]
  rcases traverseCore_ok (applyOps ops) additional (fun _ u => Except.ok u)
      (fun k s => ⟨s, rfl⟩) (ops_acyclic_pending hacyc)
      (ops_pending_ne hnd hnonlazy) (ops_pending_cov ops hcov additional)
      cycleMsg () with ⟨u, hu⟩
  cases u
  exact hu

theorem ops_verify_ok (ops : List Op) (hnd : (ops.map Op.key).Nodup)
    (hcov : ∀ op ∈ ops, ∀ d ∈ (Op.graphEntry op).2, d ∈ ops.map Op.key)
    (hacyc : Acyclic (ops.map Op.graphEntry))
    (hlz : ∀ op ∈ ops, ∀ k, Op.lazyKey op = some k →
      ∀ d ∈ (Op.graphEntry op).2, ¬ d ∈ ops.filterMap Op.lazyKey)
    (hnonlazy : ∃ op ∈ ops, Op.lazyKey op = none) :
    (applyOps ops).verify ((applyOps ops).staticValues.map Prod.fst) =
      Except.ok () := by
  rw [verify_eq_recursive (ops_dup_ok ops hnd) (ops_nested_ok ops hnd hlz)
    (ops_missing_ok ops hcov)]
  exact ops_recursive_ok ops hnd hcov hacyc hnonlazy _

theorem ops_buildStep_tot (ops : List Op)
    (hb : ∀ op ∈ ops, ∀ p, Op.builderEntry op = some p →
      ∀ s, ∃ v, p.2 s = Except.ok v) :
    ∀ k s, ∃ s', buildStep (collectMap (applyOps ops).builders) k s =
      Except.ok s' := by
  intro k s
  rw [buildStep]
  rcases hf : mapFind k (collectMap (applyOps ops).builders) with _ | f
  · exact ⟨s, rfl⟩
  · have hmem : (k, f) ∈ (applyOps ops).builders :=
      collectMap_entry_mem (mapFind_mem hf)
    rw [applyOps_builders] at hmem
    rcases List.mem_filterMap.1 hmem with ⟨op, hop, hops⟩
    rcases hb op hop (k, f) hops s with ⟨v, hv⟩
    have hv' : f s = Except.ok v := hv
    refine ⟨mapInsert k v s, ?_⟩
    show (match f s with
      | Except.ok v => Except.ok (mapInsert k v s)
      | Except.error e => Except.error e) = _
    rw [hv']

theorem ops_build_ok (ops : List Op) (hnd : (ops.map Op.key).Nodup)
    (hcov : ∀ op ∈ ops, ∀ d ∈ (Op.graphEntry op).2, d ∈ ops.map Op.key)
    (hacyc : Acyclic (ops.map Op.graphEntry))
    (hlz : ∀ op ∈ ops, ∀ k, Op.lazyKey op = some k →
      ∀ d ∈ (Op.graphEntry op).2, ¬ d ∈ ops.filterMap Op.lazyKey)
    (hb : ∀ op ∈ ops, ∀ p, Op.builderEntry op = some p →
      ∀ s, ∃ v, p.2 s = Except.ok v)
    (hnonlazy : ∃ op ∈ ops, Op.lazyKey op = none) :
    ∃ reg, (applyOps ops).build = Except.ok reg := by
  rw [build_eq_traverse (ops_verify_ok ops hnd hcov hacyc hlz hnonlazy)]
  exact traverseCore_ok (applyOps ops) _ _ (ops_buildStep_tot ops hb)
    (ops_acyclic_pending hacyc) (ops_pending_ne hnd hnonlazy)
    (ops_pending_cov ops hcov _) buildMsg _

/-! ## Static values survive resolution -/

theorem buildStep_find_preserve {BM : List (Nat × (RegMap → Except DIError Value))}
    {k : Nat} (hk : ¬ k ∈ BM.map Prod.fst) :
    ∀ (j : Nat) (s s' : RegMap), buildStep BM j s = Except.ok s' →
      mapFind k s' = mapFind k s := by
  intro j s s' h
  rw [buildStep] at h
  rcases hf : mapFind j BM with _ | f
  · rw [hf] at h
    have := Except.ok.inj h
    rw [← this]
  · rw [hf] at h
    simp only [] at h
    rcases hfs : f s with v | v
    · rw [hfs] at h
      exact Except.noConfusion h
    · rw [hfs] at h
      have hs' := Except.ok.inj h
      rw [← hs']
      have hjk : k ≠ j := by
        intro he
        subst he
        exact hk ((mapFind_isSome_iff k BM).1 (by rw [hf]; rfl))
      exact mapFind_mapInsert_ne _ _ hjk

theorem foldlM_find_preserve {σ : Type} (onResolve : Nat → σ → Except DIError σ)
    (find : σ → Option Value)
    (hpres : ∀ (j : Nat) (s s' : σ), onResolve j s = Except.ok s' →
      find s' = find s) :
    ∀ (l : List Nat) (s s' : σ),
      l.foldlM (fun st j => onResolve j st) s = Except.ok s' →
        find s' = find s := by
  intro l
  induction l with
  | nil =>
    intro s s' h
    have := Except.ok.inj h
    rw [← this]
  | cons j rest ih =>
    intro s s' h
    rw [List.foldlM_cons] at h
    rcases hj : onResolve j s with e | s1
    · rw [hj] at h
      exact Except.noConfusion h
    · rw [hj] at h
      have h2 : rest.foldlM (fun st j => onResolve j st) s1 = Except.ok s' := h
      rw [ih s1 s' h2]
      exact hpres j s s1 hj

theorem waveLoop_find_preserve {σ : Type} (onResolve : Nat → σ → Except DIError σ)
    (find : σ → Option Value)
    (hpres : ∀ (j : Nat) (s s' : σ), onResolve j s = Except.ok s' →
      find s' = find s) (errMsg : String) :
    ∀ (fuel : Nat) (avail : List Nat) (left : List (Nat × List Nat)) (s s' : σ),
      waveLoop onResolve errMsg fuel avail left s = Except.ok s' →
        find s' = find s := by
  intro fuel
  induction fuel with
  | zero =>
    intro avail left s s' h
    exact Except.noConfusion h
  | succ fuel ih =>
    intro avail left s s' h
    rw [waveLoop] at h
    rcases hfold : ((left.filter (fun p => p.2.all (fun d => d ∈ avail))).map
        Prod.fst).foldlM (fun st k => onResolve k st) s with e | s1
    · rw [hfold] at h
      exact Except.noConfusion h
    · rw [hfold] at h
      simp only [] at h
      have hs1 : find s1 = find s := foldlM_find_preserve onResolve find hpres _ s s1 hfold
      by_cases hstall :
          (left.filter (fun p => ¬ p.1 ∈
            (left.filter (fun p => p.2.all (fun d => d ∈ avail))).map
              Prod.fst)).length = left.length
      · rw [if_pos hstall] at h
        exact Except.noConfusion h
      · rw [if_neg hstall] at h
        by_cases hemp :
            (left.filter (fun p => ¬ p.1 ∈
              (left.filter (fun p => p.2.all (fun d => d ∈ avail))).map
                Prod.fst)).isEmpty
        · rw [if_pos hemp] at h
          have := Except.ok.inj h
          rw [← this]
          exact hs1
        · rw [if_neg hemp] at h
          rw [ih _ _ _ _ h]
          exact hs1

theorem traverseCore_find_preserve {σ : Type} (b : Binder)
    (additional : List Nat) (onResolve : Nat → σ → Except DIError σ)
    (find : σ → Option Value)
    (hpres : ∀ (j : Nat) (s s' : σ), onResolve j s = Except.ok s' →
      find s' = find s) (errMsg : String) (s0 s' : σ)
    (h : b.traverseCore additional onResolve errMsg s0 = Except.ok s') :
    find s' = find s0 := by
  rw [Binder.traverseCore] at h
  rcases hfold : b.resolvedLazySet.foldlM (fun st k => onResolve k st) s0
      with e | s1
  · rw [hfold] at h
    exact Except.noConfusion h
  · rw [hfold] at h
    have hs1 : find s1 = find s0 :=
      foldlM_find_preserve onResolve find hpres _ s0 s1 hfold
    rw [waveLoop_find_preserve onResolve find hpres errMsg _ _ _ _ _ h]
    exact hs1

theorem builderEntry_key {op : Op} {p : Nat × (RegMap → Except DIError Value)}
    (h : Op.builderEntry op = some p) : Op.key op = p.1 := by
  cases op with
  | inst k n v => exact Option.noConfusion h
  | inj k n deps f dbg lz =>
    rw [Op.builderEntry] at h
    have := Option.some.inj h
    rw [← this]
    rfl

theorem ops_inst_key_not_builder {ops : List Op} (hnd : (ops.map Op.key).Nodup)
    {k : Nat} {n : String} {v : Value} (hinst : Op.inst k n v ∈ ops) :
    ¬ k ∈ (collectMap (applyOps ops).builders).map Prod.fst := by
  intro hmem
  rw [mem_keys_collectMap, applyOps_builders] at hmem
  rcases List.mem_map.1 hmem with ⟨p, hp, hp1⟩
  rcases List.mem_filterMap.1 hp with ⟨op', hop', hop's⟩
  have hk' : Op.key op' = k := by rw [builderEntry_key hop's, hp1]
  have heq := op_inj_of_key hnd hop' hinst (by rw [hk']; rfl)
  rw [heq, Op.builderEntry] at hop's
  exact Option.noConfusion hop's

theorem ops_static_find {ops : List Op} (hnd : (ops.map Op.key).Nodup)
    {k : Nat} {n : String} {v : Value} (hinst : Op.inst k n v ∈ ops) :
    mapFind k (applyOps ops).staticValues = some v := by
  rw [applyOps_static, mapFind_collectMap]
  have hx : (k, v) ∈ ops.filterMap Op.staticEntry :=
    List.mem_filterMap.2 ⟨Op.inst k n v, hinst, rfl⟩
  have hxnd : ((ops.filterMap Op.staticEntry).map Prod.fst).Nodup :=
    (staticEntry_keys_sublist ops).nodup hnd
  have hrevnd : (((ops.filterMap Op.staticEntry).reverse).map Prod.fst).Nodup := by
    rw [List.map_reverse]
    exact List.nodup_reverse.2 hxnd
  exact mapFind_of_mem_nodup hrevnd (List.mem_reverse.2 hx)

theorem ops_build_static (ops : List Op) (hnd : (ops.map Op.key).Nodup)
    (reg : RegMap) (hverify : (applyOps ops).verify
      ((applyOps ops).staticValues.map Prod.fst) = Except.ok ())
    (hreg : (applyOps ops).build = Except.ok reg) :
    ∀ (k : Nat) (n : String) (v : Value), Op.inst k n v ∈ ops →
      mapFind k reg = some v := by
  intro k n v hinst
  rw [build_eq_traverse hverify] at hreg
  have hpres := traverseCore_find_preserve (applyOps ops)
    ((applyOps ops).staticValues.map Prod.fst)
    (buildStep (collectMap (applyOps ops).builders)) (mapFind k)
    (buildStep_find_preserve (ops_inst_key_not_builder hnd hinst))
    buildMsg (applyOps ops).staticValues reg hreg
  rw [hpres]
  exact ops_static_find hnd hinst

/-! ## Registration order does not matter for a well-formed sequence -/

theorem ops_perm_static {ops' ops : List Op} (hp : ops'.Perm ops)
    (hnd : (ops.map Op.key).Nodup) :
    (applyOps ops').staticValues = (applyOps ops).staticValues := by
  rw [applyOps_static, applyOps_static]
  exact collectMap_perm (hp.filterMap Op.staticEntry)
    ((staticEntry_keys_sublist ops).nodup hnd)

theorem ops_perm_buildersMap {ops' ops : List Op} (hp : ops'.Perm ops)
    (hnd : (ops.map Op.key).Nodup) :
    collectMap (applyOps ops').builders = collectMap (applyOps ops).builders := by
  rw [applyOps_builders, applyOps_builders]
  exact collectMap_perm (hp.filterMap Op.builderEntry)
    ((builderEntry_keys_sublist ops).nodup hnd)

theorem ops_perm_lazy {ops' ops : List Op} (hp : ops'.Perm ops) :
    (applyOps ops').lazyTypes = (applyOps ops).lazyTypes := by
  rw [applyOps_lazy, applyOps_lazy]
  exact sortedDedup_perm (hp.filterMap Op.lazyKey)

theorem ops_perm_lazySet {ops' ops : List Op} (hp : ops'.Perm ops) :
    (applyOps ops').resolvedLazySet = (applyOps ops).resolvedLazySet := by
  rw [Binder.resolvedLazySet, Binder.resolvedLazySet]
  simp only [ops_perm_lazy hp]
  apply sortedDedup_perm
  apply List.Perm.filter
  rw [applyOps_graph_keys, applyOps_graph_keys]
  exact hp.map Op.key

theorem ops_perm_pending {ops' ops : List Op} (hp : ops'.Perm ops)
    (hnd : (ops.map Op.key).Nodup) :
    (applyOps ops').pendingDeps = (applyOps ops).pendingDeps := by
  rw [Binder.pendingDeps, Binder.pendingDeps]
  simp only [ops_perm_lazySet hp]
  apply collectMap_perm
  · apply List.Perm.filter
    rw [applyOps_graph, applyOps_graph]
    exact hp.map Op.graphEntry
  · have hsl : (((applyOps ops).requirementsGraph.filter
        (fun p => ¬ p.1 ∈ (applyOps ops).resolvedLazySet)).map Prod.fst).Sublist
        ((applyOps ops).requirementsGraph.map Prod.fst) :=
      (List.filter_sublist _).map Prod.fst
    rw [applyOps_graph_keys] at hsl
    exact hsl.nodup hnd

theorem ops_perm_build {ops' ops : List Op} (hp : ops'.Perm ops)
    (hnd : (ops.map Op.key).Nodup)
    (hcov : ∀ op ∈ ops, ∀ d ∈ (Op.graphEntry op).2, d ∈ ops.map Op.key)
    (hacyc : Acyclic (ops.map Op.graphEntry))
    (hlz : ∀ op ∈ ops, ∀ k, Op.lazyKey op = some k →
      ∀ d ∈ (Op.graphEntry op).2, ¬ d ∈ ops.filterMap Op.lazyKey)
    (hnonlazy : ∃ op ∈ ops, Op.lazyKey op = none) :
    (applyOps ops').build = (applyOps ops).build := by
  have hnd' : (ops'.map Op.key).Nodup := ((hp.map Op.key).nodup_iff).2 hnd
  have hcov' : ∀ op ∈ ops', ∀ d ∈ (Op.graphEntry op).2, d ∈ ops'.map Op.key := by
    intro op hop d hd
    exact ((hp.map Op.key).mem_iff).2 (hcov op (hp.subset hop) d hd)
  have hacyc' : Acyclic (ops'.map Op.graphEntry) :=
    acyclic_antitone (fun p hpm => (hp.map Op.graphEntry).subset hpm) hacyc
  have hlz' : ∀ op ∈ ops', ∀ k, Op.lazyKey op = some k →
      ∀ d ∈ (Op.graphEntry op).2, ¬ d ∈ ops'.filterMap Op.lazyKey := by
    intro op hop k hk d hd hdl
    exact hlz op (hp.subset hop) k hk d hd
      (((hp.filterMap Op.lazyKey).mem_iff).1 hdl)
  have hnonlazy' : ∃ op ∈ ops', Op.lazyKey op = none := by
    rcases hnonlazy with ⟨op, hop, h⟩
    exact ⟨op, hp.symm.subset hop, h⟩
  have hv := ops_verify_ok ops hnd hcov hacyc hlz hnonlazy
  have hv' := ops_verify_ok ops' hnd' hcov' hacyc' hlz' hnonlazy'
  rw [build_eq_traverse hv', build_eq_traverse hv]
  rw [Binder.traverseCore, Binder.traverseCore]
  simp only [ops_perm_lazySet hp, ops_perm_pending hp hnd, ops_perm_static hp hnd,
    ops_perm_buildersMap hp hnd]

/-- C1 counterexample: the completely empty binder has an acyclic
registration graph and every dependency list (vacuously) covered by the
static and registered keys, yet `build()` does not return Ok for any
registry — it fails with the empty-cycle error — so the claim as stated is
false without further hypotheses. -/
theorem c1_counterexample :
    Acyclic Binder.empty.requirementsGraph ∧
    (∀ p ∈ Binder.empty.requirementsGraph, ∀ x ∈ p.2,
      x ∈ Binder.empty.staticValues.map Prod.fst ++
        Binder.empty.requirementsGraph.map Prod.fst) ∧
    ∀ reg : RegMap, ¬ Binder.empty.build = Except.ok reg := by
  refine ⟨?_, ?_, ?_⟩
  · intro k l hchain hedge
    obtain ⟨deps, hmem, _⟩ := hedge
    simp [Binder.empty] at hmem
  · intro p hp
    simp [Binder.empty] at hp
  · intro reg h
    have hempty : Binder.empty.build = Except.error (DIError.cycle cycleMsg []) :=
      rfl
    rw [hempty] at h
    exact Except.noConfusion h

/-- C1 (amended): for every registration sequence whose keys are pairwise
distinct, whose dependency graph is acyclic and fully covered by the
registered keys, with no lazy component depending on a lazy component, whose
builders always succeed, and which registers at least one non-lazy
component, `build()` returns Ok; the resulting registry holds exactly the
value supplied for every `instance()` registration; and replaying the
registrations in reverse order produces the identical registry. -/
theorem c1_acyclic_build_order_independent :
    ∀ ops : List Op,
      (ops.map Op.key).Nodup →
      (∀ op ∈ ops, ∀ d ∈ (Op.graphEntry op).2, d ∈ ops.map Op.key) →
      Acyclic (ops.map Op.graphEntry) →
      (∀ op ∈ ops, ∀ k, Op.lazyKey op = some k →
        ∀ d ∈ (Op.graphEntry op).2, ¬ d ∈ ops.filterMap Op.lazyKey) →
      (∀ op ∈ ops, ∀ p, Op.builderEntry op = some p →
        ∀ s, ∃ v, p.2 s = Except.ok v) →
      (∃ op ∈ ops, Op.lazyKey op = none) →
      ∃ reg, (applyOps ops).build = Except.ok reg ∧
        (∀ (k : Nat) (n : String) (v : Value), Op.inst k n v ∈ ops →
          mapFind k reg = some v) ∧
        (applyOps ops.reverse).build = Except.ok reg := by
  intro ops hnd hcov hacyc hlz hb hnonlazy
  rcases ops_build_ok ops hnd hcov hacyc hlz hb hnonlazy with ⟨reg, hreg⟩
  refine ⟨reg, hreg, ops_build_static ops hnd reg
    (ops_verify_ok ops hnd hcov hacyc hlz hnonlazy) hreg, ?_⟩
  rw [ops_perm_build (List.reverse_perm ops) hnd hcov hacyc hlz hnonlazy]
  exact hreg

/-- A concrete well-formed registration sequence: an instance of key 1 and a
chain of three components with constant builders. -/
def c1ops : List Op :=
  [Op.inst 1 "u32" (Value.nat 1),
    Op.inj 3 "A" [(1, "u32")] (fun _ => Except.ok (Value.nat 11)) none false,
    Op.inj 4 "B" [(3, "A")] (fun _ => Except.ok (Value.nat 12)) none false,
    Op.inj 5 "C" [(4, "B")] (fun _ => Except.ok (Value.nat 13)) none false]

/-- Witness for C1: the amended theorem applied to the concrete chain. -/
theorem c1_witness :
    ∃ reg, (applyOps c1ops).build = Except.ok reg ∧
      (∀ (k : Nat) (n : String) (v : Value), Op.inst k n v ∈ c1ops →
        mapFind k reg = some v) ∧
      (applyOps c1ops.reverse).build = Except.ok reg := by
  apply c1_acyclic_build_order_independent c1ops
  · decide
  · intro op hop
    fin_cases hop <;> decide
  · apply acyclic_of_rank _ (fun k => k)
    decide
  · intro op hop k hk d hd hmem
    have hnil : c1ops.filterMap Op.lazyKey = [] := rfl
    rw [hnil] at hmem
    exact List.not_mem_nil d hmem
  · intro op hop p hpe s
    fin_cases hop
    · exact Option.noConfusion hpe
    · cases Option.some.inj hpe
      exact ⟨Value.nat 11, rfl⟩
    · cases Option.some.inj hpe
      exact ⟨Value.nat 12, rfl⟩
    · cases Option.some.inj hpe
      exact ⟨Value.nat 13, rfl⟩
  · exact ⟨Op.inst 1 "u32" (Value.nat 1), List.mem_cons_self _ _, rfl⟩

/-! ## Merge is structural concatenation -/

/-- Apply a sequence of key-value writes to a canonical map. -/
def applyWrites {α : Type} (m : List (Nat × α)) (w : List (Nat × α)) :
    List (Nat × α) :=
  w.foldl (fun m p => mapInsert p.1 p.2 m) m

/-- Apply a sequence of key insertions to a canonical set. -/
def applySetWrites (s : List Nat) (w : List Nat) : List Nat :=
  w.foldl (fun s k => setInsert k s) s

theorem applyWrites_append {α : Type} (m : List (Nat × α))
    (w1 w2 : List (Nat × α)) :
    applyWrites m (w1 ++ w2) = applyWrites (applyWrites m w1) w2 := by
  rw [applyWrites, applyWrites, applyWrites, List.foldl_append]

theorem mapFind_applyWrites {α : Type} (j : Nat) :
    ∀ (w m : List (Nat × α)),
      mapFind j (applyWrites m w) =
        (match mapFind j w.reverse with
          | some v => some v
          | none => mapFind j m) := by
  intro w
  induction w using List.reverseRecOn with
  | nil => intro m; rfl
  | append_singleton w p ih =>
    intro m
    rw [applyWrites_append]
    show mapFind j (mapInsert p.1 p.2 (applyWrites m w)) = _
    rw [List.reverse_append]
    by_cases hj : j = p.1
    · subst hj
      rw [mapFind_mapInsert_self]
      obtain ⟨k, v⟩ := p
      simp [mapFind]
    · rw [mapFind_mapInsert_ne _ _ hj, ih m]
      obtain ⟨k, v⟩ := p
      simp only [List.reverse_cons, List.reverse_nil, List.nil_append,
        List.cons_append, List.singleton_append, mapFind]
      rw [if_neg hj]
      rfl

theorem sorted_applyWrites {α : Type} (w : List (Nat × α)) :
    ∀ m : List (Nat × α), SortedKeys m → SortedKeys (applyWrites m w) := by
  induction w with
  | nil => intro m h; exact h
  | cons p rest ih =>
    intro m h
    show SortedKeys (applyWrites (mapInsert p.1 p.2 m) rest)
    exact ih _ (sortedKeys_mapInsert _ _ _ h)

theorem applyWrites_applyWrites_nil {α : Type} (m w : List (Nat × α))
    (hm : SortedKeys m) :
    applyWrites m (applyWrites [] w) = applyWrites m w := by
  apply mapExt (sorted_applyWrites _ _ hm) (sorted_applyWrites _ _ hm)
  intro j
  rw [mapFind_applyWrites, mapFind_applyWrites]
  have hs : SortedKeys (applyWrites ([] : List (Nat × α)) w) :=
    sorted_applyWrites _ _ (by constructor)
  have hnd : ((applyWrites ([] : List (Nat × α)) w).map Prod.fst).Nodup :=
    sortedKeys_nodup hs
  have hrev : mapFind j (applyWrites ([] : List (Nat × α)) w).reverse =
      mapFind j (applyWrites ([] : List (Nat × α)) w) := by
    apply mapFind_perm (List.reverse_perm _) hnd
  rw [hrev, mapFind_applyWrites]
  rcases mapFind j w.reverse with _ | v
  · show mapFind j m = _
    rfl
  · rfl

theorem mem_applySetWrites (j : Nat) :
    ∀ (w s : List Nat), j ∈ applySetWrites s w ↔ j ∈ w ∨ j ∈ s := by
  intro w
  induction w with
  | nil => intro s; simp [applySetWrites]
  | cons k rest ih =>
    intro s
    show j ∈ applySetWrites (setInsert k s) rest ↔ _
    rw [ih, mem_setInsert]
    simp only [List.mem_cons]
    tauto

theorem sortedSet_applySetWrites (w : List Nat) :
    ∀ s : List Nat, SortedSet s → SortedSet (applySetWrites s w) := by
  induction w with
  | nil => intro s h; exact h
  | cons k rest ih =>
    intro s h
    show SortedSet (applySetWrites (setInsert k s) rest)
    exact ih _ (sortedSet_setInsert _ _ h)

theorem applySetWrites_applySetWrites_nil (s w : List Nat) (hs : SortedSet s) :
    applySetWrites s (applySetWrites [] w) = applySetWrites s w := by
  apply setExt (sortedSet_applySetWrites _ _ hs) (sortedSet_applySetWrites _ _ hs)
  intro j
  rw [mem_applySetWrites, mem_applySetWrites, mem_applySetWrites]
  simp

/-- The type-name writes one registration performs, in order. -/
def Op.nameWrites : Op → List (Nat × String)
  | Op.inst k n _ => [(k, n)]
  | Op.inj k n deps _ _ _ => deps ++ [(k, n)]

/-- The debug-site writes one registration performs. -/
def Op.debugWrites : Op → List (Nat × String)
  | Op.inst _ _ _ => []
  | Op.inj k _ _ _ dbg _ =>
    match dbg with
    | some d => [(k, d)]
    | none => []

theorem applyOps_typeNames_from (ops : List Op) :
    ∀ b : Binder, (ops.foldl applyOp b).typeNames =
      applyWrites b.typeNames ((ops.map Op.nameWrites).flatten) := by
  induction ops with
  | nil => intro b; rfl
  | cons op rest ih =>
    intro b
    rw [List.foldl_cons, ih, List.map_cons, List.flatten_cons, applyWrites_append]
    cases op with
    | inst k n v => rfl
    | inj k n deps f dbg lz =>
      show applyWrites (mapInsert k n (deps.foldl
          (fun m p => mapInsert p.1 p.2 m) b.typeNames)) _ = _
      rw [Op.nameWrites, applyWrites_append]
      rfl

theorem applyOps_debugLines_from (ops : List Op) :
    ∀ b : Binder, (ops.foldl applyOp b).debugLines =
      applyWrites b.debugLines ((ops.map Op.debugWrites).flatten) := by
  induction ops with
  | nil => intro b; rfl
  | cons op rest ih =>
    intro b
    rw [List.foldl_cons, ih, List.map_cons, List.flatten_cons, applyWrites_append]
    cases op with
    | inst k n v => rfl
    | inj k n deps f dbg lz =>
      cases dbg with
      | some d => rfl
      | none => rfl

theorem applyOps_static_sorted (ops : List Op) :
    SortedKeys (applyOps ops).staticValues := by
  rw [applyOps_static]
  exact sortedKeys_collectMap _

theorem applyOps_typeNames_sorted (ops : List Op) :
    SortedKeys (applyOps ops).typeNames := by
  rw [applyOps, applyOps_typeNames_from]
  exact sorted_applyWrites _ _ (by constructor)

theorem applyOps_debugLines_sorted (ops : List Op) :
    SortedKeys (applyOps ops).debugLines := by
  rw [applyOps, applyOps_debugLines_from]
  exact sorted_applyWrites _ _ (by constructor)

theorem applyOps_lazy_sorted (ops : List Op) :
    SortedSet (applyOps ops).lazyTypes := by
  rw [applyOps_lazy]
  exact sortedSet_sortedDedup _

theorem binder_ext {b b' : Binder} (h1 : b.staticValues = b'.staticValues)
    (h2 : b.builders = b'.builders)
    (h3 : b.requirementsGraph = b'.requirementsGraph)
    (h4 : b.typeNames = b'.typeNames) (h5 : b.debugLines = b'.debugLines)
    (h6 : b.lazyTypes = b'.lazyTypes) : b = b' := by
  cases b
  cases b'
  rw [Binder.mk.injEq]
  exact ⟨h1, h2, h3, h4, h5, h6⟩

theorem merge_applyOps (ops1 ops2 : List Op) :
    (applyOps ops1).merge (applyOps ops2) = applyOps (ops1 ++ ops2) := by
  have happ : applyOps (ops1 ++ ops2) = ops2.foldl applyOp (applyOps ops1) := by
    rw [applyOps, applyOps, List.foldl_append]
  rw [happ]
  apply binder_ext
  · show applyWrites (applyOps ops1).staticValues
      (applyOps ops2).staticValues = _
    have hW : (applyOps ops2).staticValues =
        applyWrites [] (ops2.filterMap Op.staticEntry) := applyOps_static ops2
    rw [hW, applyWrites_applyWrites_nil _ _ (applyOps_static_sorted ops1),
      applyOps_static_from ops2]
    rfl
  · show (applyOps ops1).builders ++ (applyOps ops2).builders = _
    rw [applyOps_builders ops2, applyOps_builders_from ops2]
  · show (applyOps ops1).requirementsGraph ++
      (applyOps ops2).requirementsGraph = _
    rw [applyOps_graph ops2, applyOps_graph_from ops2]
  · show applyWrites (applyOps ops1).typeNames (applyOps ops2).typeNames = _
    have hW : (applyOps ops2).typeNames =
        applyWrites [] ((ops2.map Op.nameWrites).flatten) :=
      applyOps_typeNames_from ops2 Binder.empty
    rw [hW, applyWrites_applyWrites_nil _ _ (applyOps_typeNames_sorted ops1),
      applyOps_typeNames_from ops2]
  · show applyWrites (applyOps ops1).debugLines (applyOps ops2).debugLines = _
    have hW : (applyOps ops2).debugLines =
        applyWrites [] ((ops2.map Op.debugWrites).flatten) :=
      applyOps_debugLines_from ops2 Binder.empty
    rw [hW, applyWrites_applyWrites_nil _ _ (applyOps_debugLines_sorted ops1),
      applyOps_debugLines_from ops2]
  · show applySetWrites (applyOps ops1).lazyTypes (applyOps ops2).lazyTypes = _
    have hW : (applyOps ops2).lazyTypes =
        applySetWrites [] (ops2.filterMap Op.lazyKey) := applyOps_lazy ops2
    rw [hW, applySetWrites_applySetWrites_nil _ _ (applyOps_lazy_sorted ops1),
      applyOps_lazy_from ops2]
    rfl

/-- A binder supplying leaf instances (for the merge example). -/
def c8ops1 : List Op :=
  [Op.inst 1 "u32" (Value.nat 1), Op.inst 2 "u64" (Value.nat 2)]

/-- A binder supplying dependent components (for the merge example). -/
def c8ops2 : List Op :=
  [Op.inj 3 "A" [(1, "u32")] (fun _ => Except.ok (Value.nat 21)) none false,
    Op.inj 4 "B" [(3, "A"), (2, "u64")] (fun _ => Except.ok (Value.nat 22))
      none false]

/-- C8: merging two independently built binders structurally concatenates
their registration sequences, static values, type-name maps, debug-site maps
and lazy sets — it is literally the replay of the two registration sequences
one after the other — so building the merged binder gives the same result as
building the single combined binder; and for a well-formed combined sequence
the same registry is produced in any registration order. -/
theorem c8_merge_equivalence :
    (∀ ops1 ops2 : List Op,
      (applyOps ops1).merge (applyOps ops2) = applyOps (ops1 ++ ops2)) ∧
    (∀ ops1 ops2 : List Op,
      ((applyOps ops1).merge (applyOps ops2)).build =
        (applyOps (ops1 ++ ops2)).build) ∧
    (∀ ops1 ops2 ops' : List Op,
      ops'.Perm (ops1 ++ ops2) →
      ((ops1 ++ ops2).map Op.key).Nodup →
      (∀ op ∈ ops1 ++ ops2, ∀ d ∈ (Op.graphEntry op).2,
        d ∈ (ops1 ++ ops2).map Op.key) →
      Acyclic ((ops1 ++ ops2).map Op.graphEntry) →
      (∀ op ∈ ops1 ++ ops2, ∀ k, Op.lazyKey op = some k →
        ∀ d ∈ (Op.graphEntry op).2,
          ¬ d ∈ (ops1 ++ ops2).filterMap Op.lazyKey) →
      (∀ op ∈ ops1 ++ ops2, ∀ p, Op.builderEntry op = some p →
        ∀ s, ∃ v, p.2 s = Except.ok v) →
      (∃ op ∈ ops1 ++ ops2, Op.lazyKey op = none) →
      ∃ reg, ((applyOps ops1).merge (applyOps ops2)).build = Except.ok reg ∧
        (applyOps ops').build = Except.ok reg) := by
  refine ⟨merge_applyOps, ?_, ?_⟩
  · intro ops1 ops2
    rw [merge_applyOps]
  · intro ops1 ops2 ops' hp hnd hcov hacyc hlz hb hnonlazy
    rcases ops_build_ok (ops1 ++ ops2) hnd hcov hacyc hlz hb hnonlazy
      with ⟨reg, hreg⟩
    refine ⟨reg, ?_, ?_⟩
    · rw [merge_applyOps]
      exact hreg
    · rw [ops_perm_build hp hnd hcov hacyc hlz hnonlazy]
      exact hreg

/-- Witness for C8: the merge equivalence applied to the concrete leaf and
dependent binders, with the combined registrations replayed in reverse. -/
theorem c8_witness :
    ∃ reg, ((applyOps c8ops1).merge (applyOps c8ops2)).build = Except.ok reg ∧
      (applyOps (c8ops1 ++ c8ops2).reverse).build = Except.ok reg := by
  apply c8_merge_equivalence.2.2 c8ops1 c8ops2 (c8ops1 ++ c8ops2).reverse
    (List.reverse_perm _)
  · decide
  · intro op hop
    fin_cases hop <;> decide
  · apply acyclic_of_rank _ (fun k => k)
    decide
  · intro op hop k hk d hd hmem
    have hnil : (c8ops1 ++ c8ops2).filterMap Op.lazyKey = [] := rfl
    rw [hnil] at hmem
    exact List.not_mem_nil d hmem
  · intro op hop p hpe s
    fin_cases hop
    · exact Option.noConfusion hpe
    · exact Option.noConfusion hpe
    · cases Option.some.inj hpe
      exact ⟨Value.nat 21, rfl⟩
    · cases Option.some.inj hpe
      exact ⟨Value.nat 22, rfl⟩
  · exact ⟨Op.inst 1 "u32" (Value.nat 1), List.mem_append.2
      (Or.inl (List.mem_cons_self _ _)), rfl⟩
